import Mathlib

/-!
Verification of the core algorithms of the create-vue project-scaffolding
engine: the recursive deep-merge used for manifest reconciliation
(src/utils/deepMerge.js), the dependency-field sorter (sortDependencies),
the template renderer (src/utils/renderTemplate.js) and the two directory
traversals (src/utils/directoryTraverse.js).

The JavaScript value universe is embedded shallowly: a `JVal` is a JSON-like
value.  Arrays and objects carry a numeric `id` standing for their JavaScript
object identity (reference); `Set`-based deduplication compares primitives by
value and arrays/objects by reference (SameValueZero), which the `id` fields
make expressible.  JavaScript numbers are modelled as integers: every numeric
literal appearing in the repository's merge/sort/render paths is integral, and
no claim concerns float behaviour.
-/

namespace CreateVue

inductive JVal where
  | null
  | bool (b : Bool)
  | num (n : Int)
  | str (s : String)
  | arr (id : Nat) (elems : List JVal) (props : List (String × JVal))
  | obj (id : Nat) (fields : List (String × JVal))
  deriving Repr

/-- Embedding of `const isObject = (val) => val && typeof val === 'object'`
(src/utils/deepMerge.js line 6).  In JavaScript this is truthy exactly for
non-null objects, i.e. for arrays and plain objects among JSON values
(`typeof null` is `'object'` but `null` is falsy; primitives are not of
object type; `undefined`, i.e. an absent value, is handled by `oIsObject`). -/
def isObject : JVal → Bool
  | .arr _ _ _ => true
  | .obj _ _ => true
  | _ => false

/-- Embedding of `Array.isArray` restricted to JSON values. -/
def isArrayV : JVal → Bool
  | .arr _ _ _ => true
  | _ => false

/-- Mapping (plain-object) test, used to state claims that distinguish
sequences from mappings. -/
def isMappingV : JVal → Bool
  | .obj _ _ => true
  | _ => false

/-- Lift of `isObject` to a possibly-absent value (`isObject undefined` is
false in JavaScript since `undefined` is falsy). -/
def oIsObject : Option JVal → Bool
  | some v => isObject v
  | none => false

/-- Lift of `Array.isArray` to a possibly-absent value
(`Array.isArray undefined` is false). -/
def oIsArray : Option JVal → Bool
  | some v => isArrayV v
  | none => false

/-- SameValueZero equality as used by the JavaScript `Set` constructor:
primitives compare by value, arrays and objects by reference (here: by their
identity tag).  Values of different runtime shapes are never equal; two
structured values of different kinds are distinct objects, hence unequal. -/
def sameValueZero : JVal → JVal → Bool
  | .null, .null => true
  | .bool a, .bool b => a == b
  | .num a, .num b => a == b
  | .str a, .str b => a == b
  | .arr i _ _, .arr j _ _ => i == j
  | .obj i _, .obj j _ => i == j
  | _, _ => false

/-- One step of `new Set(...)` insertion: the element is dropped when a
SameValueZero-equal element was already retained, otherwise appended. -/
def insertDedupe (acc : List JVal) (x : JVal) : List JVal :=
  if acc.any (fun y => sameValueZero y x) then acc else acc ++ [x]

/-- Embedding of `Array.from(new Set(l))`: first-seen order, deduplicated by
SameValueZero. -/
def dedupeSVZ (l : List JVal) : List JVal := l.foldl insertDedupe []

/-- Embedding of
`const mergeArrayWithDedupe = (a, b) => Array.from(new Set([...a, ...b]))`
(src/utils/deepMerge.js line 13), at the level of the element lists of the
two arrays (array spread enumerates elements only, not extra properties). -/
def mergeArrayWithDedupe (a b : List JVal) : List JVal := dedupeSVZ (a ++ b)

/-- First-match association lookup: JavaScript object property read.  Model
objects may in principle carry a duplicate key; JavaScript objects cannot, and
reads take the first binding, consistently with `setField`. -/
def lookupField : List (String × JVal) → String → Option JVal
  | [], _ => none
  | (k, v) :: fs, key => if k == key then some v else lookupField fs key

/-- Property write on an association list: overwrite the first binding of the
key in place, or append a new binding (JavaScript property insertion order). -/
def setField : List (String × JVal) → String → JVal → List (String × JVal)
  | [], k, v => [(k, v)]
  | (k0, v0) :: fs, k, v =>
    if k0 == k then (k, v) :: fs else (k0, v0) :: setField fs k v

mutual
/-- Structural size of a value, used as the recursion-depth bound (fuel) of
the merge: every value reachable through `jentries` is strictly smaller. -/
def jsize : JVal → Nat
  | .null => 1
  | .bool _ => 1
  | .num _ => 1
  | .str _ => 1
  | .arr _ xs ps => 1 + jsizeList xs + jsizeFields ps
  | .obj _ fs => 1 + jsizeFields fs
def jsizeList : List JVal → Nat
  | [] => 0
  | x :: xs => jsize x + jsizeList xs
def jsizeFields : List (String × JVal) → Nat
  | [] => 0
  | (_, v) :: fs => jsize v + jsizeFields fs
end

/-- Decimal digit test. -/
def isDigitCh (c : Char) : Bool := '0' ≤ c && c ≤ '9'

/-- Numeric value of a digit string (no sign, no leading-zero check). -/
def digitsToNat (cs : List Char) : Nat :=
  cs.foldl (fun acc c => 10 * acc + (c.toNat - '0'.toNat)) 0

/-- Canonical array-index test for a property key: a key is an array index in
JavaScript exactly when it is the canonical decimal representation of a
natural number (so "01" or "" are ordinary properties).  The 2^32-1 upper
bound of real array indices is not modelled; no claim involves such lengths. -/
def canonIndex (s : String) : Option Nat :=
  let cs := s.toList
  if cs ≠ [] && cs.all isDigitCh && (cs.head? = some '0' → cs = ['0']) then
    some (digitsToNat cs)
  else
    none

/-- Property read `v[k]`, returning `none` for JavaScript `undefined`.
On arrays, canonical index keys read the element list and other keys read the
extra-property list; reads of properties of primitives that the language does
define (e.g. string indices or `.length`) are modelled as absent — no code
path of the repository reads a property of a primitive. -/
def jget : JVal → String → Option JVal
  | .obj _ fs, k => lookupField fs k
  | .arr _ xs ps, k =>
    match canonIndex k with
    | some i => if h : i < xs.length then some (xs.get ⟨i, h⟩) else lookupField ps k
    | none => lookupField ps k
  | _, _ => none

/-- Property write `v[k] = x`.  On arrays, an in-range canonical index
overwrites the element, the index just past the end appends, and a further
out-of-range index is modelled by null-padding (JavaScript creates holes,
which serialize as null; no code path of the repository writes past the end
of an array).  Writing a property of a primitive leaves the value unchanged —
`deepMerge` only ever assigns into arrays and objects. -/
def jset : JVal → String → JVal → JVal
  | .obj id fs, k, v => .obj id (setField fs k v)
  | .arr id xs ps, k, v =>
    match canonIndex k with
    | some i =>
      if i < xs.length then .arr id (xs.set i v) ps
      else .arr id (xs ++ List.replicate (i - xs.length) .null ++ [v]) ps
    | none => .arr id xs (setField ps k v)
  | w, _, _ => w

/-- Indexed entries of an array's element list, with canonical decimal keys. -/
def indexEntries (xs : List JVal) : List (String × JVal) :=
  (xs.enum).map (fun p => (toString p.1, p.2))

/-- Own enumerable entries of a value, in `Object.keys` enumeration order:
object fields in insertion order; for arrays the element indices first and
then extra properties; primitives have none (string index properties are
never enumerated by the repository: `deepMerge` recurses only into values
satisfying `isObject`).  The JavaScript reordering of integer-like keys ahead
of string keys inside plain objects is not modelled; no claim enumerates an
object holding integer-like keys. -/
def jentries : JVal → List (String × JVal)
  | .obj _ fs => fs
  | .arr _ xs ps => indexEntries xs ++ ps
  | _ => []

/-- Own enumerable property keys, `Object.keys`. -/
def jkeys (v : JVal) : List String := (jentries v).map Prod.fst

/-- Elements of an array value (empty for non-arrays). -/
def elemsOf : JVal → List JVal
  | .arr _ xs _ => xs
  | _ => []

/-- Fuel-indexed core of `deepMerge` (src/utils/deepMerge.js lines 28-46).
For each own enumerable key of `obj` in order: if the current target value
and the incoming value are both arrays, the target property is replaced by
the deduplicated union (a fresh array, given identity tag 0 — merged arrays
are never subsequently compared by reference); else if both satisfy
`isObject`, the incoming value is merged recursively into the target value;
else the incoming value overwrites.  The fuel only bounds recursion depth and
is chosen large enough by the `deepMerge` wrapper. -/
def deepMergeF : Nat → JVal → JVal → JVal
  | 0, target, _ => target
  | fuel + 1, target, obj =>
    let dm := deepMergeF fuel
    (jentries obj).foldl
      (fun t kv =>
        let oldVal := jget t kv.1
        let newVal := kv.2
        jset t kv.1
          (if oIsArray oldVal && isArrayV newVal then
            JVal.arr 0 (mergeArrayWithDedupe (elemsOf (oldVal.getD .null)) (elemsOf newVal)) []
          else if oIsObject oldVal && isObject newVal then
            dm (oldVal.getD .null) newVal
          else
            newVal))
      target

/-- The per-key merge action of `deepMerge`: given the current target value at
a key (possibly absent) and the incoming value, produce the merged value. -/
def branchVal (oldVal : Option JVal) (newVal : JVal) (fuel : Nat) : JVal :=
  if oIsArray oldVal && isArrayV newVal then
    JVal.arr 0 (mergeArrayWithDedupe (elemsOf (oldVal.getD .null)) (elemsOf newVal)) []
  else if oIsObject oldVal && isObject newVal then
    deepMergeF fuel (oldVal.getD .null) newVal
  else
    newVal

/-- One loop iteration of `deepMerge`: process the binding `kv` of the
incoming object against the evolving target `t`. -/
def mergeStepF (fuel : Nat) (t : JVal) (kv : String × JVal) : JVal :=
  jset t kv.1 (branchVal (jget t kv.1) kv.2 fuel)

theorem deepMergeF_succ (fuel : Nat) (target obj : JVal) :
    deepMergeF (fuel + 1) target obj = (jentries obj).foldl (mergeStepF fuel) target := rfl

/-- Embedding of `deepMerge(target, obj)` (src/utils/deepMerge.js).  The
JavaScript function mutates `target` in place and returns it; the embedding
returns the updated value.  `jsize obj` strictly dominates the recursion
depth, so the fuel never runs out (`deepMergeF_fuel_congr` below). -/
def deepMerge (target obj : JVal) : JVal := deepMergeF (jsize obj) target obj

/-- Example from the source file's own doc comment (src/utils/deepMerge.js
lines 21-26): nested objects merge recursively, incoming scalars win. -/
example :
    deepMerge
      (.obj 1 [("name", .str "jack"), ("age", .num 22),
               ("links", .obj 2 [("a", .num 1), ("b", .num 2)])])
      (.obj 3 [("name", .str "tony"),
               ("links", .obj 4 [("a", .num 3), ("c", .num 4)])]) =
    .obj 1 [("name", .str "tony"), ("age", .num 22),
            ("links", .obj 2 [("a", .num 3), ("b", .num 2), ("c", .num 4)])] := rfl

example :
    deepMerge (.obj 1 [("x", .arr 2 [.num 1, .num 2] [])])
      (.obj 3 [("x", .arr 4 [.num 2, .num 3] [])]) =
    .obj 1 [("x", .arr 0 [.num 1, .num 2, .num 3] [])] := rfl

/-! Size lemmas: the fuel passed by `deepMerge` never runs out. -/

theorem jsize_pos (v : JVal) : 1 ≤ jsize v := by
  cases v <;> (simp only [jsize]; omega)

theorem jsizeFields_append (a b : List (String × JVal)) :
    jsizeFields (a ++ b) = jsizeFields a + jsizeFields b := by
  induction a with
  | nil => simp [jsizeFields]
  | cons p a ih =>
    obtain ⟨k, v⟩ := p
    rw [List.cons_append]
    simp only [jsizeFields]
    rw [ih]
    ring

theorem jsizeFields_indexEntries (xs : List JVal) :
    jsizeFields (indexEntries xs) = jsizeList xs := by
  have h : ∀ (n : Nat) (xs : List JVal),
      jsizeFields ((xs.enumFrom n).map (fun p => (toString p.1, p.2))) = jsizeList xs := by
    intro n xs
    induction xs generalizing n with
    | nil => simp [jsizeFields, jsizeList]
    | cons x xs ih => simp [List.enumFrom, jsizeFields, jsizeList, ih]
  simpa [indexEntries, List.enum] using h 0 xs

theorem jsizeFields_jentries_lt (v : JVal) : jsizeFields (jentries v) < jsize v := by
  cases v with
  | arr id xs ps =>
    simp only [jentries, jsize, jsizeFields_append, jsizeFields_indexEntries]
    omega
  | obj id fs => simp only [jentries, jsize]; omega
  | null => simp only [jentries, jsize, jsizeFields]; omega
  | bool b => simp only [jentries, jsize, jsizeFields]; omega
  | num n => simp only [jentries, jsize, jsizeFields]; omega
  | str s => simp only [jentries, jsize, jsizeFields]; omega

theorem jsize_le_of_mem_fields {k : String} {x : JVal} {l : List (String × JVal)}
    (h : (k, x) ∈ l) : jsize x ≤ jsizeFields l := by
  induction l with
  | nil => cases h
  | cons p l ih =>
    obtain ⟨k0, v0⟩ := p
    rcases List.mem_cons.1 h with h | h
    · obtain ⟨h1, h2⟩ := Prod.mk.inj h
      subst h2
      simp only [jsizeFields]
      omega
    · have := ih h
      simp only [jsizeFields]
      omega

theorem jsize_lt_of_mem_jentries {k : String} {x : JVal} {v : JVal}
    (h : (k, x) ∈ jentries v) : jsize x < jsize v :=
  lt_of_le_of_lt (jsize_le_of_mem_fields h) (jsizeFields_jentries_lt v)

theorem lookupField_mem {l : List (String × JVal)} {k : String} {x : JVal}
    (h : lookupField l k = some x) : (k, x) ∈ l := by
  induction l with
  | nil => simp [lookupField] at h
  | cons p l ih =>
    obtain ⟨k0, v0⟩ := p
    by_cases hk : k0 = k
    · subst hk
      simp only [lookupField, beq_self_eq_true, if_true, Option.some.injEq] at h
      subst h
      exact List.mem_cons_self _ _
    · have hne : (k0 == k) = false := beq_eq_false_iff_ne.2 hk
      simp only [lookupField, hne, Bool.false_eq_true, if_false] at h
      exact List.mem_cons_of_mem _ (ih h)

theorem deepMergeF_fuel_congr :
    ∀ (f1 : Nat) (o : JVal) (t : JVal) (f2 : Nat),
      jsize o ≤ f1 → jsize o ≤ f2 → deepMergeF f1 t o = deepMergeF f2 t o := by
  intro f1
  induction f1 with
  | zero => intro o t f2 h1 _; exact absurd h1 (by have := jsize_pos o; omega)
  | succ a ih =>
    intro o t f2 h1 h2
    obtain ⟨b, rfl⟩ : ∃ b, f2 = b + 1 := by
      cases f2 with
      | zero => exact absurd h2 (by have := jsize_pos o; omega)
      | succ b => exact ⟨b, rfl⟩
    rw [deepMergeF_succ, deepMergeF_succ]
    apply List.foldl_ext
    intro t0 kv hkv
    obtain ⟨k, x⟩ := kv
    have hlt : jsize x < jsize o := jsize_lt_of_mem_jentries hkv
    unfold mergeStepF branchVal
    congr 1
    split
    · rfl
    · split
      · exact ih x _ b (by omega) (by omega)
      · rfl

theorem deepMergeF_eq_deepMerge {f : Nat} {t o : JVal} (h : jsize o ≤ f) :
    deepMergeF f t o = deepMerge t o :=
  deepMergeF_fuel_congr f o t (jsize o) h le_rfl

/-- The body of `deepMerge` is a fold of the per-key merge step over the
incoming object's entries, with ample fuel. -/
theorem deepMerge_eq_foldl (t o : JVal) :
    ∃ fuel, deepMerge t o = (jentries o).foldl (mergeStepF fuel) t ∧
      jsizeFields (jentries o) ≤ fuel := by
  obtain ⟨m, hm⟩ : ∃ m, jsize o = m + 1 := ⟨jsize o - 1, by have := jsize_pos o; omega⟩
  refine ⟨m, ?_, ?_⟩
  · rw [deepMerge, hm, deepMergeF_succ]
  · have := jsizeFields_jentries_lt o
    omega

/-! Object property read/write lemmas. -/

theorem exists_obj_of_isMappingV {t : JVal} (h : isMappingV t) :
    ∃ i fs, t = JVal.obj i fs := by
  cases t with
  | obj i fs => exact ⟨i, fs, rfl⟩
  | null => simp [isMappingV] at h
  | bool b => simp [isMappingV] at h
  | num n => simp [isMappingV] at h
  | str s => simp [isMappingV] at h
  | arr i xs ps => simp [isMappingV] at h

theorem lookupField_setField_self (fs : List (String × JVal)) (k : String) (v : JVal) :
    lookupField (setField fs k v) k = some v := by
  induction fs with
  | nil => simp [setField, lookupField]
  | cons p fs ih =>
    obtain ⟨k0, v0⟩ := p
    by_cases h : k0 = k
    · subst h; simp [setField, lookupField]
    · have hne : (k0 == k) = false := beq_eq_false_iff_ne.2 h
      simp only [setField, hne, Bool.false_eq_true, if_false, lookupField, ih]

theorem lookupField_setField_other (fs : List (String × JVal)) (k k0 : String) (v : JVal)
    (h : k0 ≠ k) : lookupField (setField fs k v) k0 = lookupField fs k0 := by
  have hne : (k == k0) = false := beq_eq_false_iff_ne.2 (Ne.symm h)
  induction fs with
  | nil =>
    simp only [setField, lookupField, hne, Bool.false_eq_true, if_false]
  | cons p fs ih =>
    obtain ⟨k1, v1⟩ := p
    by_cases h1 : k1 = k
    · subst h1
      simp only [setField, beq_self_eq_true, if_true, lookupField, hne,
        Bool.false_eq_true, if_false]
    · have hne1 : (k1 == k) = false := beq_eq_false_iff_ne.2 h1
      simp only [setField, hne1, Bool.false_eq_true, if_false, lookupField, ih]

theorem setField_self {fs : List (String × JVal)} {k : String} {v : JVal}
    (h : lookupField fs k = some v) : setField fs k v = fs := by
  induction fs with
  | nil => simp [lookupField] at h
  | cons p fs ih =>
    obtain ⟨k0, v0⟩ := p
    by_cases hk : k0 = k
    · subst hk
      simp only [lookupField, beq_self_eq_true, if_true, Option.some.injEq] at h
      simp [setField, h]
    · have hne : (k0 == k) = false := beq_eq_false_iff_ne.2 hk
      simp only [lookupField, hne, Bool.false_eq_true, if_false] at h
      simp [setField, hne, ih h]

theorem jset_isMapping {t : JVal} (h : isMappingV t) (k : String) (v : JVal) :
    isMappingV (jset t k v) := by
  obtain ⟨i, fs, rfl⟩ := exists_obj_of_isMappingV h
  simp [jset, isMappingV]

theorem jget_jset_self {t : JVal} (h : isMappingV t) (k : String) (v : JVal) :
    jget (jset t k v) k = some v := by
  obtain ⟨i, fs, rfl⟩ := exists_obj_of_isMappingV h
  simp [jset, jget, lookupField_setField_self]

theorem jget_jset_other {t : JVal} (h : isMappingV t) {k k0 : String} (v : JVal)
    (hne : k0 ≠ k) : jget (jset t k v) k0 = jget t k0 := by
  obtain ⟨i, fs, rfl⟩ := exists_obj_of_isMappingV h
  simp [jset, jget, lookupField_setField_other _ _ _ _ hne]

theorem jset_jget_self {t : JVal} (h : isMappingV t) {k : String} {v : JVal}
    (hv : jget t k = some v) : jset t k v = t := by
  obtain ⟨i, fs, rfl⟩ := exists_obj_of_isMappingV h
  simp only [jget] at hv
  simp [jset, setField_self hv]

theorem mergeStepF_isMapping {t : JVal} (h : isMappingV t) (fuel : Nat) (kv : String × JVal) :
    isMappingV (mergeStepF fuel t kv) :=
  jset_isMapping h _ _

theorem foldl_mergeStepF_isMapping {t : JVal} (h : isMappingV t) (fuel : Nat)
    (gs : List (String × JVal)) : isMappingV (gs.foldl (mergeStepF fuel) t) := by
  induction gs generalizing t with
  | nil => exact h
  | cons p gs ih => exact ih (mergeStepF_isMapping h fuel p)

/-- Keys in insertion order are pairwise distinct (JavaScript objects cannot
hold a duplicate key). -/
def keysNodupB : List (String × JVal) → Bool
  | [] => true
  | (k, _) :: fs => !(fs.any (fun q => q.1 == k)) && keysNodupB fs

/-- Processing entries whose keys all avoid `k` leaves property `k` of a
mapping target untouched. -/
theorem jget_foldl_mergeStepF_not_mem {gs : List (String × JVal)} {t : JVal} {k : String}
    (ht : isMappingV t) (h : ∀ p ∈ gs, p.1 ≠ k) (fuel : Nat) :
    jget (gs.foldl (mergeStepF fuel) t) k = jget t k := by
  induction gs generalizing t with
  | nil => rfl
  | cons p gs ih =>
    have hstep : jget (mergeStepF fuel t p) k = jget t k := by
      unfold mergeStepF
      exact jget_jset_other ht _ (Ne.symm (h p (List.mem_cons_self _ _)))
    rw [List.foldl_cons,
      ih (mergeStepF_isMapping ht fuel p) (fun q hq => h q (List.mem_cons_of_mem _ hq)), hstep]

/-- First-pass characterization: with pairwise-distinct keys, the merged
value at key `k` is the per-key branch applied to the original target value
and the incoming value bound to `k`. -/
theorem jget_foldl_mergeStepF_mem {gs : List (String × JVal)} {t : JVal} {k : String} {v : JVal}
    (ht : isMappingV t) (hnd : keysNodupB gs) (h : lookupField gs k = some v) (fuel : Nat) :
    jget (gs.foldl (mergeStepF fuel) t) k = some (branchVal (jget t k) v fuel) := by
  induction gs generalizing t with
  | nil => simp [lookupField] at h
  | cons p gs ih =>
    obtain ⟨k0, v0⟩ := p
    have hnd' : gs.any (fun q => q.1 == k0) = false ∧ keysNodupB gs = true := by
      have h2 := hnd
      simp only [keysNodupB, Bool.and_eq_true, Bool.not_eq_true'] at h2
      exact h2
    by_cases hk : k0 = k
    · subst hk
      have hv : v0 = v := by
        simpa only [lookupField, beq_self_eq_true, if_true, Option.some.injEq] using h
      subst hv
      rw [List.foldl_cons]
      have hmem : ∀ q ∈ gs, q.1 ≠ k0 := by
        intro q hq hqk
        have habs : gs.any (fun q => q.1 == k0) = true :=
          List.any_eq_true.2 ⟨q, hq, by simp [hqk]⟩
        rw [hnd'.1] at habs
        exact absurd habs (by simp)
      rw [jget_foldl_mergeStepF_not_mem (mergeStepF_isMapping ht fuel _) hmem fuel]
      unfold mergeStepF
      exact jget_jset_self ht _ _
    · have hne : (k0 == k) = false := beq_eq_false_iff_ne.2 hk
      have h' : lookupField gs k = some v := by
        simpa only [lookupField, hne, Bool.false_eq_true, if_false] using h
      rw [List.foldl_cons, ih (mergeStepF_isMapping ht fuel _) hnd'.2 h']
      unfold mergeStepF
      rw [jget_jset_other ht _ (Ne.symm hk)]

/-! SameValueZero and deduplication lemmas. -/

/-- Some already-retained element is SameValueZero-equal to `x` (the
membership test of the JavaScript `Set`). -/
def coveredBy (l : List JVal) (x : JVal) : Bool := l.any (fun y => sameValueZero y x)

theorem sameValueZero_refl (v : JVal) : sameValueZero v v = true := by
  cases v <;> simp [sameValueZero]

theorem sameValueZero_symm (a b : JVal) : sameValueZero a b = sameValueZero b a := by
  cases a <;> cases b <;> simp [sameValueZero] <;> exact eq_comm

theorem sameValueZero_trans {a b c : JVal} (h1 : sameValueZero a b = true)
    (h2 : sameValueZero b c = true) : sameValueZero a c = true := by
  cases a <;> cases b <;> cases c <;> simp_all [sameValueZero]

theorem insertDedupe_covered {acc : List JVal} {x : JVal} (h : coveredBy acc x = true) :
    insertDedupe acc x = acc := by
  unfold coveredBy at h
  simp [insertDedupe, h]

theorem insertDedupe_not_covered {acc : List JVal} {x : JVal} (h : coveredBy acc x = false) :
    insertDedupe acc x = acc ++ [x] := by
  simp only [insertDedupe, coveredBy] at h ⊢
  rw [h]
  simp

theorem coveredBy_append (a b : List JVal) (x : JVal) :
    coveredBy (a ++ b) x = (coveredBy a x || coveredBy b x) := by
  simp [coveredBy, List.any_append]

theorem coveredBy_of_mem {l : List JVal} {x : JVal} (h : x ∈ l) : coveredBy l x = true := by
  simp only [coveredBy, List.any_eq_true]
  exact ⟨x, h, sameValueZero_refl x⟩

theorem coveredBy_insertDedupe (acc : List JVal) (z x : JVal) :
    coveredBy (insertDedupe acc z) x = (coveredBy acc x || sameValueZero z x) := by
  by_cases h : coveredBy acc z = true
  · rw [insertDedupe_covered h]
    by_cases hzx : sameValueZero z x = true
    · have hax : coveredBy acc x = true := by
        simp only [coveredBy, List.any_eq_true] at h ⊢
        obtain ⟨y, hy, hyz⟩ := h
        exact ⟨y, hy, sameValueZero_trans hyz hzx⟩
      rw [hax, hzx]
      rfl
    · have hzx' : sameValueZero z x = false := by simpa using hzx
      rw [hzx']
      simp
  · have h' : coveredBy acc z = false := by simpa using h
    rw [insertDedupe_not_covered h', coveredBy_append]
    have h1 : coveredBy [z] x = sameValueZero z x := by simp [coveredBy]
    rw [h1]

theorem coveredBy_foldl_insertDedupe (l : List JVal) (acc : List JVal) (x : JVal) :
    coveredBy (l.foldl insertDedupe acc) x = (coveredBy acc x || coveredBy l x) := by
  induction l generalizing acc with
  | nil => simp [coveredBy]
  | cons z l ih =>
    rw [List.foldl_cons, ih, coveredBy_insertDedupe]
    simp only [coveredBy, List.any_cons]
    rw [Bool.or_assoc]

theorem coveredBy_dedupeSVZ (l : List JVal) (x : JVal) :
    coveredBy (dedupeSVZ l) x = coveredBy l x := by
  rw [dedupeSVZ, coveredBy_foldl_insertDedupe]
  simp [coveredBy]

theorem foldl_insertDedupe_absorb {l : List JVal} {acc : List JVal}
    (h : ∀ x ∈ l, coveredBy acc x = true) : l.foldl insertDedupe acc = acc := by
  induction l with
  | nil => rfl
  | cons z l ih =>
    rw [List.foldl_cons, insertDedupe_covered (h z (List.mem_cons_self _ _))]
    exact ih (fun x hx => h x (List.mem_cons_of_mem _ hx))

/-- No element of the list is SameValueZero-equal to a later element. -/
def svzNodupB : List JVal → Bool
  | [] => true
  | x :: xs => !(coveredBy xs x) && svzNodupB xs

theorem svzNodupB_append_singleton {acc : List JVal} {x : JVal}
    (h : svzNodupB acc = true) (hx : coveredBy acc x = false) :
    svzNodupB (acc ++ [x]) = true := by
  induction acc with
  | nil => simp [svzNodupB, coveredBy]
  | cons a acc ih =>
    simp only [svzNodupB, Bool.and_eq_true, Bool.not_eq_true'] at h
    simp only [coveredBy, List.any_cons, Bool.or_eq_false_iff] at hx
    simp only [List.cons_append, svzNodupB, Bool.and_eq_true, Bool.not_eq_true']
    refine ⟨?_, ih h.2 (by simpa [coveredBy] using hx.2)⟩
    show coveredBy (acc ++ [x]) a = false
    rw [coveredBy_append, h.1]
    simp only [coveredBy, List.any_cons, List.any_nil, Bool.or_false, Bool.false_or]
    rw [sameValueZero_symm]
    exact hx.1

theorem svzNodupB_foldl_insertDedupe :
    ∀ (l acc : List JVal), svzNodupB acc = true →
      svzNodupB (l.foldl insertDedupe acc) = true := by
  intro l
  induction l with
  | nil => intro acc h; exact h
  | cons z l ih =>
    intro acc h
    rw [List.foldl_cons]
    by_cases hz : coveredBy acc z = true
    · rw [insertDedupe_covered hz]; exact ih _ h
    · have hz' : coveredBy acc z = false := by simpa using hz
      rw [insertDedupe_not_covered hz']
      exact ih _ (svzNodupB_append_singleton h hz')

theorem svzNodupB_dedupeSVZ (l : List JVal) : svzNodupB (dedupeSVZ l) = true :=
  svzNodupB_foldl_insertDedupe l [] rfl

theorem foldl_insertDedupe_of_nodup :
    ∀ (l acc : List JVal), svzNodupB l = true → (∀ x ∈ l, coveredBy acc x = false) →
      l.foldl insertDedupe acc = acc ++ l := by
  intro l
  induction l with
  | nil => intro acc _ _; simp
  | cons z l ih =>
    intro acc hl h
    simp only [svzNodupB, Bool.and_eq_true, Bool.not_eq_true'] at hl
    have hcov : ∀ x ∈ l, coveredBy (acc ++ [z]) x = false := by
      intro x hx
      rw [coveredBy_append, h x (List.mem_cons_of_mem _ hx)]
      have hcz := hl.1
      simp only [coveredBy, List.any_eq_false] at hcz
      have hzx := hcz x hx
      simp only [coveredBy, List.any_cons, List.any_nil, Bool.or_false, Bool.false_or]
      rw [sameValueZero_symm]
      simpa using hzx
    rw [List.foldl_cons, insertDedupe_not_covered (h z (List.mem_cons_self _ _)),
      ih (acc ++ [z]) hl.2 hcov]
    simp

theorem dedupeSVZ_of_nodup {l : List JVal} (hl : svzNodupB l = true) : dedupeSVZ l = l := by
  rw [dedupeSVZ, foldl_insertDedupe_of_nodup l [] hl (fun x _ => rfl)]
  simp

theorem dedupeSVZ_dedupeSVZ (l : List JVal) : dedupeSVZ (dedupeSVZ l) = dedupeSVZ l :=
  dedupeSVZ_of_nodup (svzNodupB_dedupeSVZ l)

/-- Appending elements that are already SameValueZero-covered by the list and
re-deduplicating changes nothing: the core of second-merge absorption for
array-valued fields. -/
theorem dedupeSVZ_append_absorb {l extra : List JVal}
    (h : ∀ x ∈ extra, coveredBy l x = true) :
    dedupeSVZ (dedupeSVZ l ++ extra) = dedupeSVZ l := by
  rw [dedupeSVZ, List.foldl_append]
  rw [show List.foldl insertDedupe [] (dedupeSVZ l) = dedupeSVZ (dedupeSVZ l) from rfl]
  rw [dedupeSVZ_dedupeSVZ]
  exact foldl_insertDedupe_absorb (fun x hx => by rw [coveredBy_dedupeSVZ]; exact h x hx)

theorem mergeArrayWithDedupe_absorb (a b : List JVal) :
    mergeArrayWithDedupe (mergeArrayWithDedupe a b) b = mergeArrayWithDedupe a b := by
  unfold mergeArrayWithDedupe
  exact dedupeSVZ_append_absorb
    (fun x hx => coveredBy_of_mem (List.mem_append.2 (Or.inr hx)))

mutual
/-- Identity erasure: replace every array/object identity tag by 0.  Two
values are structurally (deep-) equal exactly when their erasures coincide;
a deep copy of a value is any value with the same erasure. -/
def strip : JVal → JVal
  | .arr _ xs ps => .arr 0 (stripList xs) (stripFields ps)
  | .obj _ fs => .obj 0 (stripFields fs)
  | v => v
def stripList : List JVal → List JVal
  | [] => []
  | x :: xs => strip x :: stripList xs
def stripFields : List (String × JVal) → List (String × JVal)
  | [] => []
  | (k, v) :: fs => (k, strip v) :: stripFields fs
end

mutual
/-- Well-formedness of a JavaScript-produced value: every object (and every
extra-property list of an array) binds pairwise-distinct keys. -/
def wfB : JVal → Bool
  | .arr _ xs ps => wfL xs && keysNodupB ps && wfF ps
  | .obj _ fs => keysNodupB fs && wfF fs
  | _ => true
def wfL : List JVal → Bool
  | [] => true
  | x :: xs => wfB x && wfL xs
def wfF : List (String × JVal) → Bool
  | [] => true
  | (_, v) :: fs => wfB v && wfF fs
end

theorem wfF_mem {fs : List (String × JVal)} {k : String} {v : JVal}
    (h : wfF fs = true) (hm : (k, v) ∈ fs) : wfB v = true := by
  induction fs with
  | nil => cases hm
  | cons p fs ih =>
    obtain ⟨k0, v0⟩ := p
    simp only [wfF, Bool.and_eq_true] at h
    rcases List.mem_cons.1 hm with hm | hm
    · obtain ⟨h1, h2⟩ := Prod.mk.inj hm
      subst h2
      exact h.1
    · exact ih h.2 hm

theorem lookupField_of_mem_nodup {fs : List (String × JVal)} {k : String} {x : JVal}
    (hnd : keysNodupB fs = true) (hm : (k, x) ∈ fs) : lookupField fs k = some x := by
  induction fs with
  | nil => cases hm
  | cons p fs ih =>
    obtain ⟨k0, v0⟩ := p
    simp only [keysNodupB, Bool.and_eq_true, Bool.not_eq_true'] at hnd
    rcases List.mem_cons.1 hm with hm | hm
    · obtain ⟨h1, h2⟩ := Prod.mk.inj hm
      subst h1; subst h2
      simp [lookupField]
    · have hk : k0 ≠ k := by
        intro he
        subst he
        have habs : fs.any (fun q => q.1 == k0) = true :=
          List.any_eq_true.2 ⟨(k0, x), hm, by simp⟩
        rw [hnd.1] at habs
        exact absurd habs (by simp)
      have hne : (k0 == k) = false := beq_eq_false_iff_ne.2 hk
      simp only [lookupField, hne, Bool.false_eq_true, if_false]
      exact ih hnd.2 hm

theorem lookupField_isSome_of_mem_keys {fs : List (String × JVal)} {k : String}
    (h : k ∈ fs.map Prod.fst) : (lookupField fs k).isSome = true := by
  induction fs with
  | nil => cases h
  | cons p fs ih =>
    obtain ⟨k0, v0⟩ := p
    rw [List.map_cons] at h
    by_cases hk : k0 = k
    · subst hk; simp [lookupField]
    · have hne : (k0 == k) = false := beq_eq_false_iff_ne.2 hk
      simp only [lookupField, hne, Bool.false_eq_true, if_false]
      apply ih
      rcases List.mem_cons.1 h with h0 | h0
      · exact absurd h0.symm hk
      · exact h0

/-- Claim C1, counterexample.  The claim says: whenever `target[k]` and
`incoming[k]` are not both sequences and not both mappings, the incoming
value wins outright and no recursive merge happens.  Taking `target[k]` a
mapping and `incoming[k]` a sequence (not both sequences, not both mappings),
the code instead recursively merges the sequence's entries into the mapping:
the result at `k` is still a mapping holding the old key "a", not the
incoming sequence. -/
theorem claim_C1_counterexample :
    (isArrayV (JVal.obj 1 [("a", JVal.num 1)]) &&
      isArrayV (JVal.arr 3 [JVal.num 5] [])) = false ∧
    (isMappingV (JVal.obj 1 [("a", JVal.num 1)]) &&
      isMappingV (JVal.arr 3 [JVal.num 5] [])) = false ∧
    jget (JVal.obj 0 [("k", JVal.obj 1 [("a", JVal.num 1)])]) "k" =
      some (JVal.obj 1 [("a", JVal.num 1)]) ∧
    jget (JVal.obj 2 [("k", JVal.arr 3 [JVal.num 5] [])]) "k" =
      some (JVal.arr 3 [JVal.num 5] []) ∧
    jget
      (deepMerge (JVal.obj 0 [("k", JVal.obj 1 [("a", JVal.num 1)])])
        (JVal.obj 2 [("k", JVal.arr 3 [JVal.num 5] [])])) "k" =
      some (JVal.obj 1 [("a", JVal.num 1), ("0", JVal.num 5)]) ∧
    JVal.obj 1 [("a", JVal.num 1), ("0", JVal.num 5)] ≠ JVal.arr 3 [JVal.num 5] [] :=
  ⟨rfl, rfl, rfl, rfl, rfl, fun h => JVal.noConfusion h⟩

/-- Claim C1, amended.  For every key `k` of the incoming document, if
`target[k]` and `incoming[k]` are not both sequences and not both `isObject`
values (so at least one side is a scalar, null, or absent — when one side is
a sequence and the other a mapping the code instead merges recursively),
then `deepMerge` sets `target[k]` to `incoming[k]` outright and no error is
raised. -/
theorem claim_C1 (t o : JVal) (k : String) (v : JVal)
    (ht : isMappingV t = true) (hnd : keysNodupB (jentries o) = true)
    (hk : lookupField (jentries o) k = some v)
    (h1 : (oIsArray (jget t k) && isArrayV v) = false)
    (h2 : (oIsObject (jget t k) && isObject v) = false) :
    jget (deepMerge t o) k = some v := by
  obtain ⟨fuel, hf, _⟩ := deepMerge_eq_foldl t o
  rw [hf, jget_foldl_mergeStepF_mem ht hnd hk fuel]
  simp [branchVal, h1, h2]

/-- Witness for claim C1 at a concrete input: the target value at "k" is a
scalar string, the incoming value a number, so the incoming number wins. -/
theorem claim_C1_witness :
    isMappingV (JVal.obj 0 [("a", JVal.num 1), ("k", JVal.str "old")]) = true ∧
    keysNodupB (jentries (JVal.obj 1 [("k", JVal.num 7)])) = true ∧
    lookupField (jentries (JVal.obj 1 [("k", JVal.num 7)])) "k" = some (JVal.num 7) ∧
    jget
      (deepMerge (JVal.obj 0 [("a", JVal.num 1), ("k", JVal.str "old")])
        (JVal.obj 1 [("k", JVal.num 7)])) "k" = some (JVal.num 7) :=
  ⟨rfl, rfl, rfl,
    claim_C1 (JVal.obj 0 [("a", JVal.num 1), ("k", JVal.str "old")])
      (JVal.obj 1 [("k", JVal.num 7)]) "k" (JVal.num 7) rfl rfl rfl rfl rfl⟩

/-- Claim C3: every key present in the target document A but not present in
the incoming document B is still present in `deepMerge A B` with its value
unchanged — `deepMerge` never removes a key that exists only in the target. -/
theorem claim_C3 (A B : JVal) (k : String)
    (hA : isMappingV A = true) (hk : k ∈ jkeys A) (hnk : k ∉ jkeys B) :
    jget (deepMerge A B) k = jget A k ∧ (jget (deepMerge A B) k).isSome = true := by
  obtain ⟨fuel, hf, _⟩ := deepMerge_eq_foldl A B
  have hne : ∀ p ∈ jentries B, p.1 ≠ k := by
    intro p hp he
    exact hnk (by rw [← he]; exact List.mem_map_of_mem Prod.fst hp)
  have heq : jget (deepMerge A B) k = jget A k := by
    rw [hf]
    exact jget_foldl_mergeStepF_not_mem hA hne fuel
  refine ⟨heq, ?_⟩
  rw [heq]
  obtain ⟨i, fs, rfl⟩ := exists_obj_of_isMappingV hA
  simp only [jget]
  exact lookupField_isSome_of_mem_keys (by simpa [jkeys, jentries] using hk)

/-- Witness for claim C3 at a concrete input: the key "keep" of the target
is absent from the incoming document and survives with its value. -/
theorem claim_C3_witness :
    isMappingV (JVal.obj 0 [("keep", JVal.num 1)]) = true ∧
    "keep" ∈ jkeys (JVal.obj 0 [("keep", JVal.num 1)]) ∧
    "keep" ∉ jkeys (JVal.obj 1 [("other", JVal.num 2)]) ∧
    jget
      (deepMerge (JVal.obj 0 [("keep", JVal.num 1)]) (JVal.obj 1 [("other", JVal.num 2)]))
      "keep" = some (JVal.num 1) := by
  have h :=
    claim_C3 (JVal.obj 0 [("keep", JVal.num 1)]) (JVal.obj 1 [("other", JVal.num 2)])
      "keep" rfl (by simp [jkeys, jentries]) (by simp [jkeys, jentries])
  exact ⟨rfl, by simp [jkeys, jentries], by simp [jkeys, jentries], h.1⟩

theorem foldl_insertDedupe_prefix : ∀ (ys acc : List JVal), acc <+: ys.foldl insertDedupe acc := by
  intro ys
  induction ys with
  | nil => intro acc; exact List.prefix_refl acc
  | cons z ys ih =>
    intro acc
    rw [List.foldl_cons]
    refine List.IsPrefix.trans ?_ (ih (insertDedupe acc z))
    unfold insertDedupe
    split
    · exact List.prefix_refl acc
    · exact List.prefix_append acc [z]

/-- Claim C4: when `target[k]` and `incoming[k]` are both sequences,
`deepMerge` replaces `target[k]` by the deduplicated union: a fresh sequence
obtained by folding the Set-insertion over the incoming elements starting
from the deduplicated target elements; when the target elements are already
duplicate-free they are kept verbatim as a prefix, in order, followed by the
incoming elements not already seen. -/
theorem claim_C4 (t o : JVal) (k : String) (i : Nat) (xs : List JVal)
    (ps : List (String × JVal)) (j : Nat) (ys : List JVal) (qs : List (String × JVal))
    (ht : isMappingV t = true) (hnd : keysNodupB (jentries o) = true)
    (hold : jget t k = some (JVal.arr i xs ps))
    (hnew : lookupField (jentries o) k = some (JVal.arr j ys qs)) :
    jget (deepMerge t o) k = some (JVal.arr 0 (mergeArrayWithDedupe xs ys) []) ∧
    mergeArrayWithDedupe xs ys = List.foldl insertDedupe (dedupeSVZ xs) ys ∧
    (svzNodupB xs = true →
      mergeArrayWithDedupe xs ys = List.foldl insertDedupe xs ys ∧
      xs <+: mergeArrayWithDedupe xs ys) := by
  refine ⟨?_, ?_, ?_⟩
  · obtain ⟨fuel, hf, _⟩ := deepMerge_eq_foldl t o
    rw [hf, jget_foldl_mergeStepF_mem ht hnd hnew fuel]
    rw [hold]
    simp [branchVal, oIsArray, isArrayV, elemsOf]
  · rw [mergeArrayWithDedupe, dedupeSVZ, List.foldl_append]
    rfl
  · intro hx
    have h1 : mergeArrayWithDedupe xs ys = List.foldl insertDedupe xs ys := by
      rw [mergeArrayWithDedupe, dedupeSVZ, List.foldl_append,
        show List.foldl insertDedupe [] xs = dedupeSVZ xs from rfl, dedupeSVZ_of_nodup hx]
    exact ⟨h1, by rw [h1]; exact foldl_insertDedupe_prefix ys xs⟩

/-- Witness for claim C4 at the concrete input of the claim:
`deepMerge {x:[1,2]} {x:[2,3]}` yields `{x:[1,2,3]}` with no duplicate 2,
the target elements first. -/
theorem claim_C4_witness :
    jget
      (deepMerge (JVal.obj 1 [("x", JVal.arr 2 [JVal.num 1, JVal.num 2] [])])
        (JVal.obj 3 [("x", JVal.arr 4 [JVal.num 2, JVal.num 3] [])])) "x" =
      some (JVal.arr 0 [JVal.num 1, JVal.num 2, JVal.num 3] []) ∧
    svzNodupB [JVal.num 1, JVal.num 2] = true ∧
    [JVal.num 1, JVal.num 2] <+: [JVal.num 1, JVal.num 2, JVal.num 3] := by
  have h :=
    claim_C4 (JVal.obj 1 [("x", JVal.arr 2 [JVal.num 1, JVal.num 2] [])])
      (JVal.obj 3 [("x", JVal.arr 4 [JVal.num 2, JVal.num 3] [])]) "x"
      2 [JVal.num 1, JVal.num 2] [] 4 [JVal.num 2, JVal.num 3] []
      rfl rfl rfl rfl
  refine ⟨h.1, rfl, ?_⟩
  have h2 := (h.2.2 rfl).2
  exact h2

/-- Claim C10: sequence-merge deduplication compares elements by JavaScript
Set membership (SameValueZero) — same primitive value or same object
reference (identity tag) — not structural equality: two structurally equal
but distinct mappings appearing across the two input sequences both remain
in the merged result, while equal primitives collapse. -/
theorem claim_C10 :
    (∀ (i : Nat) (fs : List (String × JVal)) (j : Nat) (gs : List (String × JVal)),
      sameValueZero (JVal.obj i fs) (JVal.obj j gs) = (i == j)) ∧
    (∀ (i : Nat) (xs : List JVal) (ps : List (String × JVal)) (j : Nat)
      (ys : List JVal) (qs : List (String × JVal)),
      sameValueZero (JVal.arr i xs ps) (JVal.arr j ys qs) = (i == j)) ∧
    (∀ m n : Int, sameValueZero (JVal.num m) (JVal.num n) = (m == n)) ∧
    strip (JVal.obj 10 [("a", JVal.num 1)]) = strip (JVal.obj 11 [("a", JVal.num 1)]) ∧
    JVal.obj 10 [("a", JVal.num 1)] ≠ JVal.obj 11 [("a", JVal.num 1)] ∧
    mergeArrayWithDedupe [JVal.obj 10 [("a", JVal.num 1)], JVal.num 2]
        [JVal.obj 11 [("a", JVal.num 1)], JVal.num 2] =
      [JVal.obj 10 [("a", JVal.num 1)], JVal.num 2, JVal.obj 11 [("a", JVal.num 1)]] ∧
    deepMerge
        (JVal.obj 1 [("x", JVal.arr 2 [JVal.obj 10 [("a", JVal.num 1)], JVal.num 2] [])])
        (JVal.obj 3 [("x", JVal.arr 4 [JVal.obj 11 [("a", JVal.num 1)], JVal.num 2] [])]) =
      JVal.obj 1 [("x", JVal.arr 0
        [JVal.obj 10 [("a", JVal.num 1)], JVal.num 2, JVal.obj 11 [("a", JVal.num 1)]] [])] := by
  refine ⟨fun i fs j gs => rfl, fun i xs ps j ys qs => rfl, fun m n => rfl, rfl, ?_, rfl, rfl⟩
  intro h
  simp at h

theorem deepMergeF_isMapping {t : JVal} (h : isMappingV t = true) (f : Nat) (o : JVal) :
    isMappingV (deepMergeF f t o) = true := by
  cases f with
  | zero => exact h
  | succ a =>
    rw [deepMergeF_succ]
    exact foldl_mergeStepF_isMapping h a _

theorem strip_obj_inv {w : JVal} {j : Nat} {gs : List (String × JVal)}
    (h : strip w = strip (JVal.obj j gs)) :
    ∃ i fs, w = JVal.obj i fs ∧ stripFields fs = stripFields gs := by
  cases w with
  | obj i fs => exact ⟨i, fs, rfl, by simpa [strip] using h⟩
  | null => simp [strip] at h
  | bool b => simp [strip] at h
  | num n => simp [strip] at h
  | str s => simp [strip] at h
  | arr i xs ps => simp [strip] at h

theorem strip_arr_inv {w : JVal} {j : Nat} {ys : List JVal} {qs : List (String × JVal)}
    (h : strip w = strip (JVal.arr j ys qs)) :
    ∃ i xs ps, w = JVal.arr i xs ps ∧ stripList xs = stripList ys ∧
      stripFields ps = stripFields qs := by
  cases w with
  | arr i xs ps =>
    refine ⟨i, xs, ps, rfl, ?_, ?_⟩
    · have := h
      simp only [strip, JVal.arr.injEq] at this
      exact this.2.1
    · have := h
      simp only [strip, JVal.arr.injEq] at this
      exact this.2.2
  | obj i fs => simp [strip] at h
  | null => simp [strip] at h
  | bool b => simp [strip] at h
  | num n => simp [strip] at h
  | str s => simp [strip] at h

theorem strip_prim_inv {w x : JVal} (hx : isObject x = false) (h : strip w = strip x) :
    w = x := by
  cases x <;> cases w <;> simp_all [strip, isObject]

/-- Field lists with equal erasures have pointwise erasure-equal lookups. -/
theorem stripFields_lookup :
    ∀ (fs gs : List (String × JVal)), stripFields fs = stripFields gs →
      ∀ k, Option.map strip (lookupField fs k) = Option.map strip (lookupField gs k) := by
  intro fs
  induction fs with
  | nil =>
    intro gs h k
    cases gs with
    | nil => rfl
    | cons q gs => obtain ⟨k1, v1⟩ := q; simp [stripFields] at h
  | cons p fs ih =>
    intro gs h k
    obtain ⟨k0, v0⟩ := p
    cases gs with
    | nil => simp [stripFields] at h
    | cons q gs =>
      obtain ⟨k1, v1⟩ := q
      simp only [stripFields, List.cons.injEq, Prod.mk.injEq] at h
      obtain ⟨⟨hk01, hv01⟩, hrest⟩ := h
      subst hk01
      by_cases hk : k0 = k
      · subst hk
        simp [lookupField, hv01]
      · have hne : (k0 == k) = false := beq_eq_false_iff_ne.2 hk
        simp only [lookupField, hne, Bool.false_eq_true, if_false]
        exact ih gs hrest k

theorem foldl_mergeStepF_fixed {gs : List (String × JVal)} {M : JVal} {fuel : Nat}
    (h : ∀ p ∈ gs, mergeStepF fuel M p = M) : gs.foldl (mergeStepF fuel) M = M := by
  induction gs with
  | nil => rfl
  | cons p gs ih =>
    rw [List.foldl_cons, h p (List.mem_cons_self _ _)]
    exact ih (fun q hq => h q (List.mem_cons_of_mem _ hq))

/-- Core absorption lemma for claim C7: merging a document a second time
into the result of merging it into one of its deep copies changes nothing. -/
theorem deepMergeF_absorb :
    ∀ (n : Nat) (v w : JVal) (f : Nat), jsize v ≤ n → jsize v ≤ f →
      isMappingV v = true → wfB v = true → strip w = strip v →
      deepMergeF f (deepMergeF f w v) v = deepMergeF f w v := by
  intro n
  induction n with
  | zero =>
    intro v w f hn _ _ _ _
    exact absurd hn (by have := jsize_pos v; omega)
  | succ n ih =>
    intro v w f hn hf hv hwf hs
    obtain ⟨idv, fs, rfl⟩ := exists_obj_of_isMappingV hv
    obtain ⟨idw, fw, rfl, hsf⟩ := strip_obj_inv hs
    obtain ⟨a, rfl⟩ : ∃ a, f = a + 1 := by
      cases f with
      | zero => exact absurd hf (by have := jsize_pos (JVal.obj idv fs); omega)
      | succ a => exact ⟨a, rfl⟩
    simp only [wfB, Bool.and_eq_true] at hwf
    rw [deepMergeF_succ, deepMergeF_succ]
    show (jentries (JVal.obj idv fs)).foldl (mergeStepF a)
        ((jentries (JVal.obj idv fs)).foldl (mergeStepF a) (JVal.obj idw fw)) =
      (jentries (JVal.obj idv fs)).foldl (mergeStepF a) (JVal.obj idw fw)
    have hw0 : isMappingV (JVal.obj idw fw) = true := rfl
    have hM : isMappingV ((jentries (JVal.obj idv fs)).foldl (mergeStepF a) (JVal.obj idw fw)) = true :=
      foldl_mergeStepF_isMapping hw0 a _
    apply foldl_mergeStepF_fixed
    intro p hp
    obtain ⟨k, x⟩ := p
    have hpfs : (k, x) ∈ fs := by simpa [jentries] using hp
    have hlk : lookupField fs k = some x := lookupField_of_mem_nodup (by simpa [jentries] using hwf.1) hpfs
    have hy : ∃ y, lookupField fw k = some y ∧ strip y = strip x := by
      have := stripFields_lookup fw fs hsf k
      rw [hlk] at this
      cases hw : lookupField fw k with
      | none => rw [hw] at this; simp at this
      | some y =>
        rw [hw] at this
        simp at this
        exact ⟨y, rfl, this⟩
    obtain ⟨y, hyl, hys⟩ := hy
    have hgetw : jget (JVal.obj idw fw) k = some y := by simpa [jget] using hyl
    have hgetM :
        jget ((jentries (JVal.obj idv fs)).foldl (mergeStepF a) (JVal.obj idw fw)) k =
          some (branchVal (some y) x a) := by
      rw [jget_foldl_mergeStepF_mem hw0 (by simpa [jentries] using hwf.1)
        (by simpa [jentries] using hlk) a, hgetw]
    have habsorb : branchVal (some (branchVal (some y) x a)) x a = branchVal (some y) x a := by
      by_cases hxo : isObject x = true
      · cases x with
        | arr jx ys qs =>
          obtain ⟨iy, xs1, ps1, rfl, hsl, hsf1⟩ := strip_arr_inv hys
          have e1 : branchVal (some (JVal.arr iy xs1 ps1)) (JVal.arr jx ys qs) a =
              JVal.arr 0 (mergeArrayWithDedupe xs1 ys) [] := rfl
          have e2 : branchVal (some (JVal.arr 0 (mergeArrayWithDedupe xs1 ys) []))
              (JVal.arr jx ys qs) a =
              JVal.arr 0 (mergeArrayWithDedupe (mergeArrayWithDedupe xs1 ys) ys) [] := rfl
          rw [e1, e2, mergeArrayWithDedupe_absorb]
        | obj jx gsx =>
          obtain ⟨iy, fsy, rfl, hsfy⟩ := strip_obj_inv hys
          have hm : branchVal (some (JVal.obj iy fsy)) (JVal.obj jx gsx) a =
              deepMergeF a (JVal.obj iy fsy) (JVal.obj jx gsx) := by
            simp [branchVal, oIsArray, isArrayV, oIsObject, isObject, elemsOf]
          rw [hm]
          have hy0 : isMappingV (JVal.obj iy fsy) = true := rfl
          have hMm : isMappingV (deepMergeF a (JVal.obj iy fsy) (JVal.obj jx gsx)) = true :=
            deepMergeF_isMapping hy0 a _
          obtain ⟨im, fsm, hobj⟩ := exists_obj_of_isMappingV hMm
          have hrec :
              deepMergeF a (deepMergeF a (JVal.obj iy fsy) (JVal.obj jx gsx)) (JVal.obj jx gsx) =
                deepMergeF a (JVal.obj iy fsy) (JVal.obj jx gsx) := by
            apply ih (JVal.obj jx gsx) (JVal.obj iy fsy) a
            · have := jsize_lt_of_mem_jentries (v := JVal.obj idv fs) (by simpa [jentries] using hpfs)
              omega
            · have := jsize_lt_of_mem_jentries (v := JVal.obj idv fs) (by simpa [jentries] using hpfs)
              omega
            · rfl
            · exact wfF_mem hwf.2 hpfs
            · exact hys
          rw [hobj] at hrec ⊢
          have e3 : branchVal (some (JVal.obj im fsm)) (JVal.obj jx gsx) a =
              deepMergeF a (JVal.obj im fsm) (JVal.obj jx gsx) := rfl
          rw [e3]
          exact hrec
        | null => simp [isObject] at hxo
        | bool b => simp [isObject] at hxo
        | num m => simp [isObject] at hxo
        | str str1 => simp [isObject] at hxo
      · have hx' : isObject x = false := by simpa using hxo
        have hxa : isArrayV x = false := by
          cases x <;> simp_all [isObject, isArrayV]
        have h1 : branchVal (some y) x a = x := by
          simp [branchVal, oIsArray, hxa, oIsObject, hx']
        rw [h1]
        simp [branchVal, oIsArray, hxa, oIsObject, hx']
    show jset _ k (branchVal (jget _ k) x a) = _
    rw [hgetM, habsorb]
    exact jset_jget_self hM hgetM

/-- Claim C7: for any acyclic well-formed document A (a mapping with
pairwise-distinct keys at every level, as every JavaScript-parsed document
is) and any deep copy C of it (same erasure, arbitrary identity tags),
merging A a second time changes nothing:
`deepMerge (deepMerge C A) A = deepMerge C A`. -/
theorem claim_C7 (A C : JVal) (hA : isMappingV A = true) (hwf : wfB A = true)
    (hcopy : strip C = strip A) :
    deepMerge (deepMerge C A) A = deepMerge C A := by
  show deepMergeF (jsize A) (deepMerge C A) A = deepMergeF (jsize A) C A
  rw [show deepMerge C A = deepMergeF (jsize A) C A from rfl]
  exact deepMergeF_absorb (jsize A) A C (jsize A) le_rfl le_rfl hA hwf hcopy

/-- Witness for claim C7 at a concrete input containing a scalar field, a
nested mapping and a sequence of mappings; the copy carries fresh identity
tags throughout. -/
theorem claim_C7_witness :
    isMappingV (JVal.obj 1 [("name", JVal.str "a"),
      ("links", JVal.obj 2 [("b", JVal.num 2)]),
      ("xs", JVal.arr 3 [JVal.obj 4 [("c", JVal.num 3)]] [])]) = true ∧
    wfB (JVal.obj 1 [("name", JVal.str "a"),
      ("links", JVal.obj 2 [("b", JVal.num 2)]),
      ("xs", JVal.arr 3 [JVal.obj 4 [("c", JVal.num 3)]] [])]) = true ∧
    strip (JVal.obj 11 [("name", JVal.str "a"),
      ("links", JVal.obj 12 [("b", JVal.num 2)]),
      ("xs", JVal.arr 13 [JVal.obj 14 [("c", JVal.num 3)]] [])]) =
      strip (JVal.obj 1 [("name", JVal.str "a"),
        ("links", JVal.obj 2 [("b", JVal.num 2)]),
        ("xs", JVal.arr 3 [JVal.obj 4 [("c", JVal.num 3)]] [])]) ∧
    deepMerge
      (deepMerge
        (JVal.obj 11 [("name", JVal.str "a"),
          ("links", JVal.obj 12 [("b", JVal.num 2)]),
          ("xs", JVal.arr 13 [JVal.obj 14 [("c", JVal.num 3)]] [])])
        (JVal.obj 1 [("name", JVal.str "a"),
          ("links", JVal.obj 2 [("b", JVal.num 2)]),
          ("xs", JVal.arr 3 [JVal.obj 4 [("c", JVal.num 3)]] [])]))
      (JVal.obj 1 [("name", JVal.str "a"),
        ("links", JVal.obj 2 [("b", JVal.num 2)]),
        ("xs", JVal.arr 3 [JVal.obj 4 [("c", JVal.num 3)]] [])]) =
    deepMerge
      (JVal.obj 11 [("name", JVal.str "a"),
        ("links", JVal.obj 12 [("b", JVal.num 2)]),
        ("xs", JVal.arr 13 [JVal.obj 14 [("c", JVal.num 3)]] [])])
      (JVal.obj 1 [("name", JVal.str "a"),
        ("links", JVal.obj 2 [("b", JVal.num 2)]),
        ("xs", JVal.arr 3 [JVal.obj 4 [("c", JVal.num 3)]] [])]) :=
  ⟨rfl, rfl, rfl,
    claim_C7
      (JVal.obj 1 [("name", JVal.str "a"),
        ("links", JVal.obj 2 [("b", JVal.num 2)]),
        ("xs", JVal.arr 3 [JVal.obj 4 [("c", JVal.num 3)]] [])])
      (JVal.obj 11 [("name", JVal.str "a"),
        ("links", JVal.obj 12 [("b", JVal.num 2)]),
        ("xs", JVal.arr 13 [JVal.obj 14 [("c", JVal.num 3)]] [])])
      rfl rfl rfl⟩

/-! Embedding of sortDependencies (src/utils/sortDependencies.js). -/

/-- JavaScript truthiness restricted to JSON values (`if (packageJson[depType])`).
The absent case (`undefined`, falsy) is handled by the caller. -/
def truthy : JVal → Bool
  | .null => false
  | .bool b => b
  | .num n => !(n == 0)
  | .str s => !(s == "")
  | .arr _ _ _ => true
  | .obj _ _ => true

/-- The fixed list of dependency-like manifest fields whose keys are sorted. -/
def depTypes : List String :=
  ["dependencies", "devDependencies", "peerDependencies", "optionalDependencies"]

/-- Lexicographic comparison of character lists by code point, the order of
the default `Array.prototype.sort` comparator on strings.  (JavaScript
compares UTF-16 code units; code points agree with that on all keys outside
the astral planes, and no claim involves astral-plane characters.) -/
def charListLe : List Char → List Char → Bool
  | [], _ => true
  | _ :: _, [] => false
  | a :: as, b :: bs =>
    if a.toNat < b.toNat then true
    else if b.toNat < a.toNat then false
    else charListLe as bs

def strLeB (a b : String) : Bool := charListLe a.toList b.toList

/-- Embedding of `Object.keys(x).sort()`: the default comparator sorts
lexicographically by character code (insertion sort; the sort's stability is
irrelevant since an object's keys are pairwise distinct). -/
def sortStrings (l : List String) : List String :=
  l.insertionSort (fun a b => strLeB a b = true)

/-- The object built for one dependency field: the keys sorted, each bound to
its original value. -/
def sortedDepFields (v : JVal) : List (String × JVal) :=
  (sortStrings (jkeys v)).map (fun n => (n, (jget v n).getD JVal.null))

/-- Object-spread combination `\x7b...a, ...b\x7d`: the keys of `a` in
their order, values overridden by `b` where `b` also binds the key, followed
by the bindings of `b` whose keys `a` lacks. -/
def overrideFields (base upd : List (String × JVal)) : List (String × JVal) :=
  base.map (fun p =>
    match lookupField upd p.1 with
    | some w => (p.1, w)
    | none => p) ++
  upd.filter (fun q => (lookupField base q.1).isNone)

/-- Truthiness of a property read: an absent property (`undefined`) is falsy. -/
def otruthy : Option JVal → Bool
  | some v => truthy v
  | none => false

/-- Embedding of `sortDependencies(packageJson)`
(src/utils/sortDependencies.js): build a fresh `sorted` object holding, for
each present and truthy dependency field (`if (packageJson[depType])`), a
fresh object with that field's keys sorted; return
`\x7b...packageJson, ...sorted\x7d`. -/
def sortDependencies (packageJson : JVal) : JVal :=
  let sorted := depTypes.filterMap (fun depType =>
    if otruthy (jget packageJson depType) then
      some (depType,
        JVal.obj 0 (sortedDepFields ((jget packageJson depType).getD JVal.null)))
    else none)
  JVal.obj 0 (overrideFields (jentries packageJson) sorted)

theorem lookupField_append (a b : List (String × JVal)) (k : String) :
    lookupField (a ++ b) k =
      match lookupField a k with
      | some v => some v
      | none => lookupField b k := by
  induction a with
  | nil => simp [lookupField]
  | cons p a ih =>
    obtain ⟨k0, v0⟩ := p
    by_cases hk : k0 = k
    · subst hk; simp [lookupField]
    · have hne : (k0 == k) = false := beq_eq_false_iff_ne.2 hk
      simp only [List.cons_append, lookupField, hne, Bool.false_eq_true, if_false]
      exact ih

theorem lookupField_mapOverride (base upd : List (String × JVal)) (k : String) :
    lookupField (base.map (fun p =>
      match lookupField upd p.1 with
      | some w => (p.1, w)
      | none => p)) k =
    match lookupField base k with
    | some v0 => some ((lookupField upd k).getD v0)
    | none => none := by
  induction base with
  | nil => simp [lookupField]
  | cons p base ih =>
    obtain ⟨k0, v0⟩ := p
    by_cases hk : k0 = k
    · subst hk
      cases h : lookupField upd k0 with
      | some w => simp [lookupField, h]
      | none => simp [lookupField, h]
    · have hne : (k0 == k) = false := beq_eq_false_iff_ne.2 hk
      cases h : lookupField upd k0 with
      | some w => simp only [List.map_cons, lookupField, h, hne, Bool.false_eq_true, if_false, ih]
      | none => simp only [List.map_cons, lookupField, h, hne, Bool.false_eq_true, if_false, ih]

theorem lookupField_filterNone (base upd : List (String × JVal)) (k : String) :
    lookupField (upd.filter (fun q => (lookupField base q.1).isNone)) k =
      if (lookupField base k).isNone then lookupField upd k else none := by
  induction upd with
  | nil => simp [lookupField]
  | cons q upd ih =>
    obtain ⟨k1, w1⟩ := q
    rw [List.filter_cons]
    by_cases hk : k1 = k
    · subst hk
      cases hb : (lookupField base k1).isNone with
      | true => simp [hb, lookupField, ih]
      | false => simp [hb, lookupField, ih]
    · have hne : (k1 == k) = false := beq_eq_false_iff_ne.2 hk
      cases hb : (lookupField base k1).isNone with
      | true => simp [hb, lookupField, hne, ih]
      | false =>
        simp only [Bool.false_eq_true, if_false]
        rw [ih]
        by_cases hbk : (lookupField base k).isNone = true
        · rw [if_pos hbk, if_pos hbk]
          simp [lookupField, hne]
        · rw [if_neg hbk, if_neg hbk]

theorem lookupField_overrideFields_some {base upd : List (String × JVal)} {k : String}
    {w : JVal} (h : lookupField upd k = some w) :
    lookupField (overrideFields base upd) k = some w := by
  rw [overrideFields, lookupField_append, lookupField_mapOverride, lookupField_filterNone]
  cases hb : lookupField base k with
  | some v0 => simp [h]
  | none => simp [h]

theorem lookupField_overrideFields_none {base upd : List (String × JVal)} {k : String}
    (h : lookupField upd k = none) :
    lookupField (overrideFields base upd) k = lookupField base k := by
  rw [overrideFields, lookupField_append, lookupField_mapOverride, lookupField_filterNone]
  cases hb : lookupField base k with
  | some v0 => simp [h]
  | none => simp [h]

theorem overrideFields_keys {base upd : List (String × JVal)}
    (h : ∀ q ∈ upd, (lookupField base q.1).isNone = false) :
    (overrideFields base upd).map Prod.fst = base.map Prod.fst := by
  rw [overrideFields]
  have hfilter : upd.filter (fun q => (lookupField base q.1).isNone) = [] := by
    rw [List.filter_eq_nil_iff]
    intro q hq
    simp [h q hq]
  rw [hfilter, List.append_nil, List.map_map]
  apply List.map_congr_left
  intro p _
  simp only [Function.comp_apply]
  cases lookupField upd p.1 <;> rfl

/-- Lookup inside the `sorted` object of `sortDependencies`. -/
theorem lookupField_sorted_filterMap (pkg : JVal) (k : String) :
    lookupField (depTypes.filterMap (fun depType =>
      if otruthy (jget pkg depType) then
        some (depType,
          JVal.obj 0 (sortedDepFields ((jget pkg depType).getD JVal.null)))
      else none)) k =
    if k ∈ depTypes then
      (if otruthy (jget pkg k) then
        some (JVal.obj 0 (sortedDepFields ((jget pkg k).getD JVal.null)))
      else none)
    else none := by
  have key : ∀ (l : List String), l.Nodup →
      lookupField (l.filterMap (fun depType =>
        if otruthy (jget pkg depType) then
          some (depType,
            JVal.obj 0 (sortedDepFields ((jget pkg depType).getD JVal.null)))
        else none)) k =
      if k ∈ l then
        (if otruthy (jget pkg k) then
          some (JVal.obj 0 (sortedDepFields ((jget pkg k).getD JVal.null)))
        else none)
      else none := by
    intro l hl
    induction l with
    | nil => simp [lookupField]
    | cons d l ih =>
      have hl' := List.nodup_cons.1 hl
      by_cases hk : d = k
      · subst hk
        by_cases ht : otruthy (jget pkg d) = true
        · simp [List.filterMap_cons, ht, lookupField]
        · have ht' : otruthy (jget pkg d) = false := by simpa using ht
          simp only [List.filterMap_cons, ht', Bool.false_eq_true, if_false]
          rw [ih hl'.2]
          simp [hl'.1, ht']
      · have hne : (d == k) = false := beq_eq_false_iff_ne.2 hk
        have hkn : (k ∈ l) ↔ (k ∈ d :: l) := by
          constructor
          · exact fun h0 => List.mem_cons_of_mem _ h0
          · intro h0
            rcases List.mem_cons.1 h0 with h0 | h0
            · exact absurd h0.symm hk
            · exact h0
        by_cases ht : otruthy (jget pkg d) = true
        · simp only [List.filterMap_cons, ht, if_true, lookupField, hne,
            Bool.false_eq_true, if_false]
          rw [ih hl'.2]
          exact if_congr hkn rfl rfl
        · have ht' : otruthy (jget pkg d) = false := by simpa using ht
          simp only [List.filterMap_cons, ht', Bool.false_eq_true, if_false]
          rw [ih hl'.2]
          exact if_congr hkn rfl rfl
  exact key depTypes (by decide)

theorem sortDependencies_keys {pkg : JVal} (hp : isMappingV pkg = true) :
    jkeys (sortDependencies pkg) = jkeys pkg := by
  obtain ⟨i, fs, rfl⟩ := exists_obj_of_isMappingV hp
  show (overrideFields (jentries (JVal.obj i fs)) _).map Prod.fst = _
  rw [overrideFields_keys]
  · rfl
  · intro q hq
    obtain ⟨d, hd, hq2⟩ := List.mem_filterMap.1 hq
    by_cases ht : otruthy (jget (JVal.obj i fs) d) = true
    · rw [if_pos ht] at hq2
      obtain ⟨h1, h2⟩ := Prod.mk.inj (Option.some.inj hq2)
      subst h1
      cases hdv : jget (JVal.obj i fs) q.1 with
      | some v =>
        simp only [jget] at hdv
        simp [jentries, hdv]
      | none =>
        rw [hdv] at ht
        simp [otruthy] at ht
    · rw [if_neg ht] at hq2
      cases hq2

theorem sortDependencies_other {pkg : JVal} (hp : isMappingV pkg = true) {k : String}
    (hk : k ∉ depTypes) : jget (sortDependencies pkg) k = jget pkg k := by
  obtain ⟨i, fs, rfl⟩ := exists_obj_of_isMappingV hp
  show lookupField (overrideFields (jentries (JVal.obj i fs)) _) k = _
  rw [lookupField_overrideFields_none]
  · rfl
  · rw [lookupField_sorted_filterMap]
    simp [hk]

theorem sortDependencies_dep {pkg : JVal} (hp : isMappingV pkg = true) {d : String}
    (hd : d ∈ depTypes) {v : JVal} (hv : jget pkg d = some v) (ht : truthy v = true) :
    jget (sortDependencies pkg) d = some (JVal.obj 0 (sortedDepFields v)) := by
  obtain ⟨i, fs, rfl⟩ := exists_obj_of_isMappingV hp
  show lookupField (overrideFields (jentries (JVal.obj i fs)) _) d = _
  rw [lookupField_overrideFields_some]
  rw [lookupField_sorted_filterMap]
  simp [hd, hv, ht, otruthy]

theorem charListLe_total : ∀ a b : List Char, charListLe a b = true ∨ charListLe b a = true := by
  intro a
  induction a with
  | nil => intro b; left; rfl
  | cons x as ih =>
    intro b
    cases b with
    | nil => right; rfl
    | cons y bs =>
      by_cases h1 : x.toNat < y.toNat
      · left; simp [charListLe, h1]
      · by_cases h2 : y.toNat < x.toNat
        · right; simp [charListLe, h2]
        · rcases ih bs with h | h
          · left; simp [charListLe, h1, h2, h]
          · right; simp [charListLe, h1, h2, h]

theorem charListLe_trans :
    ∀ a b c : List Char, charListLe a b = true → charListLe b c = true →
      charListLe a c = true := by
  intro a
  induction a with
  | nil => intro b c _ _; rfl
  | cons x as ih =>
    intro b c hab hbc
    cases b with
    | nil => simp [charListLe] at hab
    | cons y bs =>
      cases c with
      | nil => simp [charListLe] at hbc
      | cons z cs =>
        by_cases hxy : x.toNat < y.toNat
        · by_cases hyz : y.toNat < z.toNat
          · have hxz : x.toNat < z.toNat := by omega
            simp [charListLe, hxz]
          · by_cases hzy : z.toNat < y.toNat
            · simp [charListLe, hyz, hzy] at hbc
            · have hxz : x.toNat < z.toNat := by omega
              simp [charListLe, hxz]
        · by_cases hyx : y.toNat < x.toNat
          · simp [charListLe, hxy, hyx] at hab
          · simp only [charListLe, if_neg hxy, if_neg hyx] at hab
            by_cases hyz : y.toNat < z.toNat
            · have hxz : x.toNat < z.toNat := by omega
              simp [charListLe, hxz]
            · by_cases hzy : z.toNat < y.toNat
              · simp [charListLe, hyz, hzy] at hbc
              · simp only [charListLe, if_neg hyz, if_neg hzy] at hbc
                have hxz1 : ¬ x.toNat < z.toNat := by omega
                have hxz2 : ¬ z.toNat < x.toNat := by omega
                simp only [charListLe, if_neg hxz1, if_neg hxz2]
                exact ih bs cs hab hbc

theorem sortedDepFields_spec {v : JVal} (hv : isMappingV v = true) :
    (sortedDepFields v).map Prod.fst = sortStrings (jkeys v) ∧
    List.Sorted (fun a b : String => strLeB a b = true) (sortStrings (jkeys v)) ∧
    (sortStrings (jkeys v)).Perm (jkeys v) ∧
    ∀ p ∈ sortedDepFields v, jget v p.1 = some p.2 := by
  haveI htot : IsTotal String (fun a b => strLeB a b = true) :=
    ⟨fun a b => charListLe_total a.toList b.toList⟩
  haveI htrans : IsTrans String (fun a b => strLeB a b = true) :=
    ⟨fun a b c => charListLe_trans a.toList b.toList c.toList⟩
  refine ⟨?_, ?_, ?_, ?_⟩
  · rw [sortedDepFields, List.map_map]
    have hcomp : (Prod.fst ∘ fun n : String => (n, (jget v n).getD JVal.null)) = id := by
      funext n
      rfl
    rw [hcomp, List.map_id]
  · exact List.sorted_insertionSort _ _
  · exact List.perm_insertionSort _ _
  · intro p hp
    obtain ⟨n, hn, rfl⟩ := List.mem_map.1 hp
    have hnk : n ∈ jkeys v :=
      (List.perm_insertionSort (fun a b : String => strLeB a b = true) (jkeys v)).subset hn
    obtain ⟨i, fs, rfl⟩ := exists_obj_of_isMappingV hv
    have hs : (lookupField fs n).isSome = true :=
      lookupField_isSome_of_mem_keys (by simpa [jkeys, jentries] using hnk)
    obtain ⟨w, hw⟩ := Option.isSome_iff_exists.1 hs
    simp [jget, hw]

/-! JSON serialization, modelling `JSON.stringify(value, null, 2)`. -/

/-- Lower-case hexadecimal digit. -/
def hexDigit (n : Nat) : Char :=
  if n < 10 then Char.ofNat (Char.toNat (Char.ofNat 48) + n)
  else Char.ofNat (Char.toNat (Char.ofNat 97) + (n - 10))

/-- Escaping of one character inside a JSON string literal, as
`JSON.stringify` performs it: quote, backslash, the named control escapes,
and `\u00XX` for the remaining control characters. -/
def escapeChar (c : Char) : String :=
  if c = Char.ofNat 34 then "\\\""
  else if c = Char.ofNat 92 then "\\\\"
  else if c = Char.ofNat 10 then "\\n"
  else if c = Char.ofNat 9 then "\\t"
  else if c = Char.ofNat 13 then "\\r"
  else if c = Char.ofNat 8 then "\\b"
  else if c = Char.ofNat 12 then "\\f"
  else if c.toNat < 32 then
    "\\u00" ++ String.singleton (hexDigit (c.toNat / 16)) ++
      String.singleton (hexDigit (c.toNat % 16))
  else String.singleton c

/-- JSON string literal with surrounding quotes. -/
def quoteStr (s : String) : String :=
  "\"" ++ String.join (s.toList.map escapeChar) ++ "\""

/-- Fuel-indexed body of `JSON.stringify(v, null, 2)`: two-space indentation,
each array element and object member on its own line, `[]`/`\x7b\x7d` for the
empty cases; array extra properties are not serialized, object members keep
property order, integers print in decimal.  The fuel bounds nesting depth and
is chosen ample by the wrapper. -/
def jsonStringifyF : Nat → String → JVal → String
  | 0, _, _ => ""
  | fuel + 1, ind, v =>
    match v with
    | .null => "null"
    | .bool b => if b then "true" else "false"
    | .num n => toString n
    | .str s => quoteStr s
    | .arr _ [] _ => "[]"
    | .arr _ xs _ =>
      let sf := jsonStringifyF fuel (ind ++ "  ")
      "[\n" ++ String.intercalate ",\n" (xs.map (fun x => ind ++ "  " ++ sf x)) ++
        "\n" ++ ind ++ "]"
    | .obj _ [] => "\x7b\x7d"
    | .obj _ fs =>
      let sf := jsonStringifyF fuel (ind ++ "  ")
      "\x7b\n" ++ String.intercalate ",\n"
          (fs.map (fun p => ind ++ "  " ++ quoteStr p.1 ++ ": " ++ sf p.2)) ++
        "\n" ++ ind ++ "\x7d"

/-- Embedding of `JSON.stringify(v, null, 2)`. -/
def jsonStringify (v : JVal) : String := jsonStringifyF (jsize v) "" v

example :
    jsonStringify (JVal.obj 1 [("dependencies",
      JVal.obj 2 [("a", JVal.str "1"), ("b", JVal.str "2")])]) =
    "\x7b\n  \"dependencies\": \x7b\n    \"a\": \"1\",\n    \"b\": \"2\"\n  \x7d\n\x7d" := rfl

/-! JSON parsing, modelling `JSON.parse`.  The model covers the JSON used by
manifest files: objects, arrays, strings with the named escapes, integral
numbers, `true`/`false`/`null` and whitespace.  Fractional/exponent numbers
and `\u` escapes are not modelled — parsing simply fails on them, and no
claim depends on such inputs.  Every parsed object and array receives a
fresh identity tag from a counter threaded through the parser, reflecting
that `JSON.parse` allocates fresh objects. -/

def skipWs : List Char → List Char
  | [] => []
  | c :: cs =>
    if c = ' ' || c = Char.ofNat 10 || c = Char.ofNat 9 || c = Char.ofNat 13 then skipWs cs
    else c :: cs

/-- The named escapes of JSON string literals. -/
def escMap : Char → Option Char
  | '"' => some (Char.ofNat 34)
  | '/' => some '/'
  | 'n' => some (Char.ofNat 10)
  | 't' => some (Char.ofNat 9)
  | 'r' => some (Char.ofNat 13)
  | 'b' => some (Char.ofNat 8)
  | 'f' => some (Char.ofNat 12)
  | c => if c = Char.ofNat 92 then some (Char.ofNat 92) else none

/-- Parse the body of a string literal after the opening quote, up to and
consuming the closing quote. -/
def parseStringBody : List Char → Option (String × List Char)
  | [] => none
  | c :: rest =>
    if c = Char.ofNat 34 then some ("", rest)
    else if c = Char.ofNat 92 then
      match rest with
      | [] => none
      | e :: rest1 =>
        match escMap e with
        | some d =>
          match parseStringBody rest1 with
          | some (s, rest2) => some (String.singleton d ++ s, rest2)
          | none => none
        | none => none
    else
      match parseStringBody rest with
      | some (s, rest2) => some (String.singleton c ++ s, rest2)
      | none => none

/-- Parse an integral JSON number token; fails when a fraction or exponent
follows (floats are outside the model). -/
def parseIntTok (cs : List Char) : Option (Int × List Char) :=
  let core : List Char → Option (Nat × List Char) := fun l =>
    let ds := l.takeWhile isDigitCh
    let rest := l.dropWhile isDigitCh
    if ds = [] then none
    else
      match rest with
      | c :: _ => if c = '.' || c = 'e' || c = 'E' then none else some (digitsToNat ds, rest)
      | [] => some (digitsToNat ds, rest)
  match cs with
  | '-' :: l =>
    match core l with
    | some (n, rest) => some (-(n : Int), rest)
    | none => none
  | l =>
    match core l with
    | some (n, rest) => some ((n : Int), rest)
    | none => none

mutual
def parseVal : Nat → Nat → List Char → Option (JVal × Nat × List Char)
  | 0, _, _ => none
  | fuel + 1, nid, cs0 =>
    match skipWs cs0 with
    | [] => none
    | c :: rest =>
      if c = Char.ofNat 34 then
        match parseStringBody rest with
        | some (s, rest1) => some (.str s, nid, rest1)
        | none => none
      else if c = '[' then
        match skipWs rest with
        | ']' :: rest1 => some (.arr nid [] [], nid + 1, rest1)
        | _ =>
          match parseElems fuel (nid + 1) rest with
          | some (xs, nid1, rest1) => some (.arr nid xs [], nid1, rest1)
          | none => none
      else if c = Char.ofNat 123 then
        match skipWs rest with
        | d :: rest1 =>
          if d = Char.ofNat 125 then some (.obj nid [], nid + 1, rest1)
          else
            match parseMembers fuel (nid + 1) rest with
            | some (fs, nid1, rest1) => some (.obj nid fs, nid1, rest1)
            | none => none
        | [] => none
      else
        match c :: rest with
        | 't' :: 'r' :: 'u' :: 'e' :: rest1 => some (.bool true, nid, rest1)
        | 'f' :: 'a' :: 'l' :: 's' :: 'e' :: rest1 => some (.bool false, nid, rest1)
        | 'n' :: 'u' :: 'l' :: 'l' :: rest1 => some (.null, nid, rest1)
        | l =>
          match parseIntTok l with
          | some (n, rest1) => some (.num n, nid, rest1)
          | none => none

def parseElems : Nat → Nat → List Char → Option (List JVal × Nat × List Char)
  | 0, _, _ => none
  | fuel + 1, nid, cs =>
    match parseVal fuel nid cs with
    | some (v, nid1, rest) =>
      match skipWs rest with
      | ',' :: rest1 =>
        match parseElems fuel nid1 rest1 with
        | some (xs, nid2, rest2) => some (v :: xs, nid2, rest2)
        | none => none
      | ']' :: rest1 => some ([v], nid1, rest1)
      | _ => none
    | none => none

def parseMembers : Nat → Nat → List Char → Option (List (String × JVal) × Nat × List Char)
  | 0, _, _ => none
  | fuel + 1, nid, cs =>
    match skipWs cs with
    | c :: rest =>
      if c = Char.ofNat 34 then
        match parseStringBody rest with
        | some (key, rest1) =>
          match skipWs rest1 with
          | ':' :: rest2 =>
            match parseVal fuel nid rest2 with
            | some (v, nid1, rest3) =>
              match skipWs rest3 with
              | ',' :: rest4 =>
                match parseMembers fuel nid1 rest4 with
                | some (fs, nid2, rest5) => some ((key, v) :: fs, nid2, rest5)
                | none => none
              | d :: rest4 =>
                if d = Char.ofNat 125 then some ([(key, v)], nid1, rest4) else none
              | [] => none
            | none => none
          | _ => none
        | none => none
      else none
    | [] => none
end

/-- Embedding of `JSON.parse(s)` with an identity-tag counter starting at
`startId`; returns the parsed document together with the next unused tag, or
`none` where `JSON.parse` would throw a `SyntaxError`. -/
def parseDoc (s : String) (startId : Nat) : Option (JVal × Nat) :=
  match parseVal (2 * s.toList.length + 4) startId s.toList with
  | some (v, nid, rest) => if skipWs rest = [] then some (v, nid) else none
  | none => none

example :
    parseDoc "\x7b\"dependencies\": \x7b\"a\": \"1\"\x7d\x7d" 1 =
      some (JVal.obj 1 [("dependencies", JVal.obj 2 [("a", JVal.str "1")])], 3) := rfl

example : parseDoc " [1, 2] " 5 = some (JVal.arr 5 [JVal.num 1, JVal.num 2] [], 6) := rfl

/-! Embedding of renderTemplate (src/utils/renderTemplate.js).

The source template tree is a value of `FsNode` (the renderer only reads it);
the destination is a flat store of files, each an absolute path (a list of
segments) with string contents.  Directories of the destination are implicit:
`fs.mkdirSync(dest, { recursive: true })` has no observable effect in
the flat model, and a destination path occupied by a directory is not
representable — no claim concerns that failure mode.  The model additionally
logs every destination path whose contents the renderer reads
(`fs.readFileSync(dest)`), to settle the claim that only the manifest-merge
branch reads an existing destination file. -/

inductive FsNode where
  | file (content : String)
  | dir (children : List (String × FsNode))

/-- Render errors: a malformed manifest surfaces as a fatal parse error
(`JSON.parse` throws); `noFuel` is the artificial out-of-fuel marker, never
reached when the fuel exceeds the template depth. -/
inductive RErr where
  | parseError
  | noFuel

structure RenderSt where
  files : List (List String × String)
  reads : List (List String)

def lookupPathFile : List (List String × String) → List String → Option String
  | [], _ => none
  | (p, c) :: fs, q => if p == q then some c else lookupPathFile fs q

def setPathFile : List (List String × String) → List String → String → List (List String × String)
  | [], p, c => [(p, c)]
  | (p0, c0) :: fs, p, c =>
    if p0 == p then (p, c) :: fs else (p0, c0) :: setPathFile fs p c

/-- Embedding of `filename.startsWith(\'_\')` for the one-character prefix
used by the renderer. -/
def startsWithUnderscore (s : String) : Bool :=
  match s.toList with
  | c :: _ => c = Char.ofNat 95
  | [] => false

/-- Embedding of `filename.replace(/^_/, \'.\')`: the leading underscore, if
any, becomes a literal dot. -/
def renameHidden (s : String) : String :=
  match s.toList with
  | c :: rest => if c = Char.ofNat 95 then String.mk (Char.ofNat 46 :: rest) else s
  | [] => s

/-- Embedding of `renderTemplate(src, dest)`.  `srcName` is
`path.basename(src)`; `dest` is the destination path.  A directory is
rendered by recursively rendering every child under the same name.  A file
named `package.json` whose destination already exists is reconciled: parse
both, deep-merge the source document into the existing one, sort the
dependency fields, and write with two-space indentation and a trailing
newline; this is the only branch that reads a destination file.  Otherwise a
leading underscore of the filename is replaced by a dot, and the bytes are
copied. -/
def renderTemplate : Nat → FsNode → String → List String → RenderSt → Except RErr RenderSt
  | 0, _, _, _, _ => .error .noFuel
  | fuel + 1, src, srcName, dest, st =>
    match src with
    | .dir children =>
      let rT := renderTemplate fuel
      children.foldl
        (fun acc child =>
          match acc with
          | .error e => .error e
          | .ok st1 => rT child.2 child.1 (dest ++ [child.1]) st1)
        (.ok st)
    | .file content =>
      match (if srcName == "package.json" then lookupPathFile st.files dest else none) with
      | some existingS =>
        match parseDoc existingS 1 with
        | none => .error .parseError
        | some (existing, n1) =>
          match parseDoc content n1 with
          | none => .error .parseError
          | some (newPackage, _) =>
            let pkg := sortDependencies (deepMerge existing newPackage)
            .ok { files := setPathFile st.files dest (jsonStringify pkg ++ "\n"),
                  reads := st.reads ++ [dest] }
      | none =>
        let destF :=
          if startsWithUnderscore srcName then dest.dropLast ++ [renameHidden srcName]
          else dest
        .ok { files := setPathFile st.files destF content, reads := st.reads }

/-- The destination paths at which the template places a file named
`package.json`: the only places where the renderer may read an existing
destination file. -/
inductive ReadsPkg : FsNode → String → List String → List String → Prop
  | pkgFile (content : String) (dest : List String) :
      ReadsPkg (.file content) "package.json" dest dest
  | inDir (children : List (String × FsNode)) (name : String) (dest : List String)
      (childName : String) (child : FsNode) (p : List String)
      (hmem : (childName, child) ∈ children)
      (h : ReadsPkg child childName (dest ++ [childName]) p) :
      ReadsPkg (.dir children) name dest p

theorem foldl_render_error (fuel : Nat) (dest : List String)
    (children : List (String × FsNode)) (e : RErr) :
    children.foldl
      (fun acc child =>
        match acc with
        | Except.error e => (Except.error e : Except RErr RenderSt)
        | Except.ok st1 => renderTemplate fuel child.2 child.1 (dest ++ [child.1]) st1)
      (Except.error e) = Except.error e := by
  induction children with
  | nil => rfl
  | cons c children ih => rw [List.foldl_cons]; exact ih

/-- Only the manifest-merge branch reads an existing destination file: every
path whose contents a successful render reads was either read before the
call or is the destination of a source file literally named `package.json`. -/
theorem renderTemplate_reads :
    ∀ (fuel : Nat) (src : FsNode) (srcName : String) (dest : List String)
      (st st2 : RenderSt),
      renderTemplate fuel src srcName dest st = .ok st2 →
      ∀ p ∈ st2.reads, p ∈ st.reads ∨ ReadsPkg src srcName dest p := by
  intro fuel
  induction fuel with
  | zero =>
    intro src srcName dest st st2 h
    simp [renderTemplate] at h
  | succ fuel ih =>
    intro src srcName dest st st2 h p hp
    cases src with
    | file content =>
      simp only [renderTemplate] at h
      cases hmatch : (if srcName == "package.json" then lookupPathFile st.files dest else none) with
      | none =>
        simp only [hmatch] at h
        obtain rfl : _ = st2 := Except.ok.inj h
        exact Or.inl hp
      | some existingS =>
        have hname : srcName = "package.json" := by
          by_cases hn : (srcName == "package.json") = true
          · exact beq_iff_eq.1 hn
          · rw [if_neg hn] at hmatch; cases hmatch
        simp only [hmatch] at h
        cases hpe : parseDoc existingS 1 with
        | none =>
          simp only [hpe] at h
          exact Except.noConfusion h
        | some en =>
          obtain ⟨e, n1⟩ := en
          simp only [hpe] at h
          cases hps : parseDoc content n1 with
          | none =>
            simp only [hps] at h
            exact Except.noConfusion h
          | some sn =>
            obtain ⟨sv, n2⟩ := sn
            simp only [hps] at h
            obtain rfl : _ = st2 := Except.ok.inj h
            simp only [List.mem_append, List.mem_singleton] at hp
            rcases hp with hp | hp
            · exact Or.inl hp
            · subst hp
              subst hname
              exact Or.inr (ReadsPkg.pkgFile content _)
    | dir children =>
      simp only [renderTemplate] at h
      have key : ∀ (cs : List (String × FsNode)) (st0 st2 : RenderSt),
          cs.foldl
            (fun acc child =>
              match acc with
              | Except.error e => (Except.error e : Except RErr RenderSt)
              | Except.ok st1 => renderTemplate fuel child.2 child.1 (dest ++ [child.1]) st1)
            (Except.ok st0) = Except.ok st2 →
          ∀ p ∈ st2.reads, p ∈ st0.reads ∨
            ∃ name child, (name, child) ∈ cs ∧ ReadsPkg child name (dest ++ [name]) p := by
        intro cs
        induction cs with
        | nil =>
          intro st0 st2 h0 p hp0
          simp only [List.foldl_nil] at h0
          obtain rfl : st0 = st2 := Except.ok.inj h0
          exact Or.inl hp0
        | cons c cs ihc =>
          intro st0 st2 h0 p hp0
          obtain ⟨name, child⟩ := c
          simp only [List.foldl_cons] at h0
          cases hstep : renderTemplate fuel child name (dest ++ [name]) st0 with
          | error e =>
            rw [hstep] at h0
            rw [foldl_render_error] at h0
            cases h0
          | ok st1 =>
            rw [hstep] at h0
            rcases ihc st1 st2 h0 p hp0 with hin | ⟨nm, ch, hmem, hr⟩
            · rcases ih child name (dest ++ [name]) st0 st1 hstep p hin with hin0 | hr0
              · exact Or.inl hin0
              · exact Or.inr ⟨name, child, List.mem_cons_self _ _, hr0⟩
            · exact Or.inr ⟨nm, ch, List.mem_cons_of_mem _ hmem, hr⟩
      rcases key children st st2 h p hp with hin | ⟨nm, ch, hmem, hr⟩
      · exact Or.inl hin
      · exact Or.inr (ReadsPkg.inDir children srcName dest nm ch p hmem hr)

/-- Claim C2: rendering a source file named exactly `package.json` onto an
existing destination parses both files, deep-merges the source document into
the existing one (existing = target, source = incoming), sorts the keys of
the four dependency fields alphabetically while leaving every other field
and its post-merge position unchanged, and overwrites the destination with
the two-space-indented serialization plus a trailing newline; and this is
the only code path of the renderer that reads an existing destination file. -/
theorem claim_C2 (fuel : Nat) (content : String) (dest : List String) (st : RenderSt)
    (existingS : String) (e sv : JVal) (n1 n2 : Nat)
    (hx : lookupPathFile st.files dest = some existingS)
    (hpe : parseDoc existingS 1 = some (e, n1))
    (hps : parseDoc content n1 = some (sv, n2)) :
    renderTemplate (fuel + 1) (.file content) "package.json" dest st =
      .ok { files := setPathFile st.files dest
              (jsonStringify (sortDependencies (deepMerge e sv)) ++ "\n"),
            reads := st.reads ++ [dest] } ∧
    (∀ pkg, isMappingV pkg = true → jkeys (sortDependencies pkg) = jkeys pkg) ∧
    (∀ pkg k, isMappingV pkg = true → k ∉ depTypes →
      jget (sortDependencies pkg) k = jget pkg k) ∧
    (∀ pkg d v, isMappingV pkg = true → d ∈ depTypes → jget pkg d = some v →
      truthy v = true →
      jget (sortDependencies pkg) d = some (JVal.obj 0 (sortedDepFields v))) ∧
    (∀ v, isMappingV v = true →
      (sortedDepFields v).map Prod.fst = sortStrings (jkeys v) ∧
      List.Sorted (fun a b : String => strLeB a b = true) (sortStrings (jkeys v)) ∧
      (sortStrings (jkeys v)).Perm (jkeys v) ∧
      ∀ p ∈ sortedDepFields v, jget v p.1 = some p.2) ∧
    (∀ (fuel2 : Nat) (src : FsNode) (srcName : String) (dest2 : List String)
      (st0 st2 : RenderSt), renderTemplate fuel2 src srcName dest2 st0 = .ok st2 →
      ∀ p ∈ st2.reads, p ∈ st0.reads ∨ ReadsPkg src srcName dest2 p) := by
  refine ⟨?_, ?_, ?_, ?_, ?_, ?_⟩
  · simp only [renderTemplate, beq_self_eq_true, if_true, hx, hpe, hps]
  · intro pkg hp
    exact sortDependencies_keys hp
  · intro pkg k hp hk
    exact sortDependencies_other hp hk
  · intro pkg d v hp hd hv ht
    exact sortDependencies_dep hp hd hv ht
  · intro v hv
    exact sortedDepFields_spec hv
  · exact renderTemplate_reads

/-- Witness for claim C2 at the concrete input of the specification's test:
an existing destination manifest `{"dependencies":{"a":"1"}}`
merged with a source manifest `{"dependencies":{"b":"2"}}`
yields a manifest whose dependencies hold both "a" and "b" alphabetically,
serialized with two-space indentation and a trailing newline. -/
theorem claim_C2_witness :
    lookupPathFile [(["proj", "package.json"],
        "\x7b\"dependencies\": \x7b\"a\": \"1\"\x7d\x7d")] ["proj", "package.json"] =
      some "\x7b\"dependencies\": \x7b\"a\": \"1\"\x7d\x7d" ∧
    parseDoc "\x7b\"dependencies\": \x7b\"a\": \"1\"\x7d\x7d" 1 =
      some (JVal.obj 1 [("dependencies", JVal.obj 2 [("a", JVal.str "1")])], 3) ∧
    parseDoc "\x7b\"dependencies\": \x7b\"b\": \"2\"\x7d\x7d" 3 =
      some (JVal.obj 3 [("dependencies", JVal.obj 4 [("b", JVal.str "2")])], 5) ∧
    renderTemplate 1 (.file "\x7b\"dependencies\": \x7b\"b\": \"2\"\x7d\x7d")
        "package.json" ["proj", "package.json"]
        { files := [(["proj", "package.json"],
            "\x7b\"dependencies\": \x7b\"a\": \"1\"\x7d\x7d")], reads := [] } =
      .ok { files := [(["proj", "package.json"],
              "\x7b\n  \"dependencies\": \x7b\n    \"a\": \"1\",\n    \"b\": \"2\"\n  \x7d\n\x7d\n")],
            reads := [["proj", "package.json"]] } := by
  have h :=
    claim_C2 0 "\x7b\"dependencies\": \x7b\"b\": \"2\"\x7d\x7d" ["proj", "package.json"]
      { files := [(["proj", "package.json"],
          "\x7b\"dependencies\": \x7b\"a\": \"1\"\x7d\x7d")], reads := [] }
      "\x7b\"dependencies\": \x7b\"a\": \"1\"\x7d\x7d"
      (JVal.obj 1 [("dependencies", JVal.obj 2 [("a", JVal.str "1")])])
      (JVal.obj 3 [("dependencies", JVal.obj 4 [("b", JVal.str "2")])]) 3 5
      rfl rfl rfl
  exact ⟨rfl, rfl, rfl, h.1⟩

/-- Claim C9: rendering a source file whose basename starts with an
underscore (and hence is not the `package.json` merge case) writes the
file's bytes unmodified into the same destination directory, under the
destination filename with the leading underscore replaced by a literal dot,
and reads nothing. -/
theorem claim_C9 (fuel : Nat) (content srcName : String) (d : List String)
    (st : RenderSt) (h : startsWithUnderscore srcName = true) :
    renderTemplate (fuel + 1) (.file content) srcName (d ++ [srcName]) st =
      .ok { files := setPathFile st.files (d ++ [renameHidden srcName]) content,
            reads := st.reads } := by
  have hne : (srcName == "package.json") = false := by
    apply beq_eq_false_iff_ne.2
    intro he
    rw [he] at h
    exact absurd h (by decide)
  simp only [renderTemplate, hne, Bool.false_eq_true, if_false, h, if_true]
  rw [List.dropLast_concat]

/-- Witness for claim C9: rendering a source file named `_gitignore` into an
empty destination directory produces `.gitignore` with identical bytes. -/
theorem claim_C9_witness :
    startsWithUnderscore "_gitignore" = true ∧
    renameHidden "_gitignore" = ".gitignore" ∧
    renderTemplate 1 (.file "node_modules\n") "_gitignore" ["proj", "_gitignore"]
        { files := [], reads := [] } =
      .ok { files := [(["proj", ".gitignore"], "node_modules\n")], reads := [] } :=
  ⟨rfl, rfl, claim_C9 0 "node_modules\n" "_gitignore" ["proj"] { files := [], reads := [] } rfl⟩

/-! Embedding of the directory traversals (src/utils/directoryTraverse.js).

The filesystem is a finite ordered tree: regular files, symbolic links
(`lstatSync` does not follow them, so a link is a leaf whose
`isDirectory()` is false) and directories with named children in listing
order.  Paths are segment lists resolved from the traversal root's tree.
Callbacks receive the full path and may mutate the whole filesystem —
the traversal state carries the current tree, the log of callback
invocations (path and whether the directory callback was used) and the log
of directories listed by `readdirSync`. -/

inductive FsTree where
  | file
  | link
  | dir (children : List (String × FsTree))

inductive FsErr where
  | enoent
  | enotdir
  | noFuel

def isDirT : FsTree → Bool
  | .dir _ => true
  | _ => false

def findChild : List (String × FsTree) → String → Option FsTree
  | [], _ => none
  | (n, t) :: cs, name => if n == name then some t else findChild cs name

def lookupNode : FsTree → List String → Option FsTree
  | t, [] => some t
  | .dir cs, n :: rest =>
    match findChild cs n with
    | some c => lookupNode c rest
    | none => none
  | _, _ :: _ => none

/-- Embedding of `fs.readdirSync(p)`: the children names in listing order;
throws ENOENT on a missing path and ENOTDIR on a non-directory. -/
def readdirNames (fs : FsTree) (p : List String) : Except FsErr (List String) :=
  match lookupNode fs p with
  | none => .error .enoent
  | some (.dir cs) => .ok (cs.map Prod.fst)
  | some _ => .error .enotdir

/-- Embedding of `fs.lstatSync(p).isDirectory()`: does not follow symbolic
links; throws ENOENT on a missing path. -/
def isDirAt (fs : FsTree) (p : List String) : Except FsErr Bool :=
  match lookupNode fs p with
  | none => .error .enoent
  | some t => .ok (isDirT t)

structure TravState where
  fs : FsTree
  visited : List (List String × Bool)
  listed : List (List String)

/-- A traversal callback: receives the full path, may mutate the tree. -/
abbrev Cb := List String → FsTree → FsTree

/-- Embedding of `preOrderDirectoryTraverse(dir, dirCallback, fileCallback)`:
list `dir` once, then for each name in the listing: if the entry is a
directory, invoke the directory callback first, re-check that the path still
exists (the callback may have deleted it) and only then recurse; otherwise
invoke the file callback.  The fuel bounds recursion depth only. -/
def preOrderDirectoryTraverse :
    Nat → Cb → Cb → List String → TravState → Except FsErr TravState
  | 0, _, _, _, _ => .error .noFuel
  | fuel + 1, dirCallback, fileCallback, dir, st =>
    match readdirNames st.fs dir with
    | .error e => .error e
    | .ok names =>
      let pre := preOrderDirectoryTraverse fuel dirCallback fileCallback
      names.foldl
        (fun acc name =>
          match acc with
          | Except.error e => (Except.error e : Except FsErr TravState)
          | Except.ok st1 =>
            let fullpath := dir ++ [name]
            match isDirAt st1.fs fullpath with
            | .error e => .error e
            | .ok true =>
              let st2 : TravState :=
                { fs := dirCallback fullpath st1.fs,
                  visited := st1.visited ++ [(fullpath, true)],
                  listed := st1.listed }
              if (lookupNode st2.fs fullpath).isSome then pre fullpath st2
              else .ok st2
            | .ok false =>
              .ok { fs := fileCallback fullpath st1.fs,
                    visited := st1.visited ++ [(fullpath, false)],
                    listed := st1.listed })
        (.ok { st with listed := st.listed ++ [dir] })

/-- Embedding of `postOrderDirectoryTraverse(dir, dirCallback, fileCallback)`:
for each name in the listing, a directory is fully traversed first and its
callback invoked after; files get the file callback. -/
def postOrderDirectoryTraverse :
    Nat → Cb → Cb → List String → TravState → Except FsErr TravState
  | 0, _, _, _, _ => .error .noFuel
  | fuel + 1, dirCallback, fileCallback, dir, st =>
    match readdirNames st.fs dir with
    | .error e => .error e
    | .ok names =>
      let post := postOrderDirectoryTraverse fuel dirCallback fileCallback
      names.foldl
        (fun acc name =>
          match acc with
          | Except.error e => (Except.error e : Except FsErr TravState)
          | Except.ok st1 =>
            let fullpath := dir ++ [name]
            match isDirAt st1.fs fullpath with
            | .error e => .error e
            | .ok true =>
              match post fullpath st1 with
              | .error e => .error e
              | .ok st2 =>
                .ok { fs := dirCallback fullpath st2.fs,
                      visited := st2.visited ++ [(fullpath, true)],
                      listed := st2.listed }
            | .ok false =>
              .ok { fs := fileCallback fullpath st1.fs,
                    visited := st1.visited ++ [(fullpath, false)],
                    listed := st1.listed })
        (.ok { st with listed := st.listed ++ [dir] })

/-- Claim C8: invoked on a root that does not exist, either traversal fails
with ENOENT; invoked on a root that exists but is not a directory, either
traversal fails with ENOTDIR; neither silently no-ops. -/
theorem claim_C8 (fuel : Nat) (dirCallback fileCallback : Cb) (dir : List String)
    (st : TravState) :
    (lookupNode st.fs dir = none →
      preOrderDirectoryTraverse (fuel + 1) dirCallback fileCallback dir st =
        .error .enoent ∧
      postOrderDirectoryTraverse (fuel + 1) dirCallback fileCallback dir st =
        .error .enoent) ∧
    (∀ t, lookupNode st.fs dir = some t → isDirT t = false →
      preOrderDirectoryTraverse (fuel + 1) dirCallback fileCallback dir st =
        .error .enotdir ∧
      postOrderDirectoryTraverse (fuel + 1) dirCallback fileCallback dir st =
        .error .enotdir) := by
  constructor
  · intro h
    constructor
    · simp only [preOrderDirectoryTraverse, readdirNames, h]
    · simp only [postOrderDirectoryTraverse, readdirNames, h]
  · intro t h hnd
    have ht : ∀ e, (match t with
        | .dir cs => (Except.ok (cs.map Prod.fst) : Except FsErr (List String))
        | _ => .error e) = .error e := by
      intro e
      cases t with
      | dir cs => simp [isDirT] at hnd
      | file => rfl
      | link => rfl
    constructor
    · simp only [preOrderDirectoryTraverse, readdirNames, h]
      cases t with
      | dir cs => simp [isDirT] at hnd
      | file => rfl
      | link => rfl
    · simp only [postOrderDirectoryTraverse, readdirNames, h]
      cases t with
      | dir cs => simp [isDirT] at hnd
      | file => rfl
      | link => rfl

/-- Witness for claim C8: a missing root gives ENOENT, a file root gives
ENOTDIR, for both traversal orders. -/
theorem claim_C8_witness :
    lookupNode (FsTree.dir [("a", FsTree.file)]) ["missing"] = none ∧
    lookupNode (FsTree.dir [("a", FsTree.file)]) ["a"] = some FsTree.file ∧
    preOrderDirectoryTraverse 1 (fun _ f => f) (fun _ f => f) ["missing"]
      { fs := FsTree.dir [("a", FsTree.file)], visited := [], listed := [] } =
      .error .enoent ∧
    postOrderDirectoryTraverse 1 (fun _ f => f) (fun _ f => f) ["missing"]
      { fs := FsTree.dir [("a", FsTree.file)], visited := [], listed := [] } =
      .error .enoent ∧
    preOrderDirectoryTraverse 1 (fun _ f => f) (fun _ f => f) ["a"]
      { fs := FsTree.dir [("a", FsTree.file)], visited := [], listed := [] } =
      .error .enotdir ∧
    postOrderDirectoryTraverse 1 (fun _ f => f) (fun _ f => f) ["a"]
      { fs := FsTree.dir [("a", FsTree.file)], visited := [], listed := [] } =
      .error .enotdir := by
  have h1 :=
    claim_C8 0 (fun _ f => f) (fun _ f => f) ["missing"]
      { fs := FsTree.dir [("a", FsTree.file)], visited := [], listed := [] }
  have h2 :=
    claim_C8 0 (fun _ f => f) (fun _ f => f) ["a"]
      { fs := FsTree.dir [("a", FsTree.file)], visited := [], listed := [] }
  have ha := h1.1 rfl
  have hb := h2.2 FsTree.file rfl rfl
  exact ⟨rfl, rfl, ha.1, ha.2, hb.1, hb.2⟩

/-! Removal of a filesystem path, and pre-order deletion safety (claim C5). -/

def removeChild : List (String × FsTree) → String → List (String × FsTree)
  | [], _ => []
  | (n, t) :: cs, name => if n == name then cs else (n, t) :: removeChild cs name

def updateChild : List (String × FsTree) → String → FsTree → List (String × FsTree)
  | [], _, _ => []
  | (m, t) :: cs, name, t2 =>
    if m == name then (m, t2) :: cs else (m, t) :: updateChild cs name t2

/-- Remove the node at a path (`fs.rmdirSync(p, recursive: true)` on a
directory, `fs.unlinkSync(p)` on a file or link); a missing path or the
empty path leaves the tree unchanged (the traversal callbacks only receive
existing, non-root paths). -/
def removePath : FsTree → List String → FsTree
  | t, [] => t
  | .dir cs, [n] => .dir (removeChild cs n)
  | .dir cs, n :: rest =>
    match findChild cs n with
    | some c => .dir (updateChild cs n (removePath c rest))
    | none => .dir cs
  | t, _ => t

/-- The deleting callback of the recursive-emptying use-case: remove exactly
the path the callback was given. -/
def removeCb : Cb := fun p fs => removePath fs p

theorem lookupNode_append (p : List String) :
    ∀ (q : List String) (fs : FsTree),
      lookupNode fs (p ++ q) =
        match lookupNode fs p with
        | some t => lookupNode t q
        | none => none := by
  induction p with
  | nil => intro q fs; cases fs <;> rfl
  | cons m p ih =>
    intro q fs
    cases fs with
    | dir cs =>
      show lookupNode (FsTree.dir cs) (m :: (p ++ q)) = _
      simp only [lookupNode]
      cases findChild cs m with
      | some c => exact ih q c
      | none => rfl
    | file => rfl
    | link => rfl

theorem findChild_updateChild_self {cs : List (String × FsTree)} {m : String} {c : FsTree}
    (h : findChild cs m = some c) (t2 : FsTree) :
    findChild (updateChild cs m t2) m = some t2 := by
  induction cs with
  | nil => simp [findChild] at h
  | cons p cs ih =>
    obtain ⟨k, t⟩ := p
    by_cases hk : k = m
    · subst hk
      simp [updateChild, findChild]
    · have hne : (k == m) = false := beq_eq_false_iff_ne.2 hk
      simp only [findChild, hne, Bool.false_eq_true, if_false] at h
      simp only [updateChild, hne, Bool.false_eq_true, if_false, findChild]
      exact ih h

theorem lookupNode_removePath_concat :
    ∀ (p : List String) (fs : FsTree) (cs0 : List (String × FsTree)) (n : String),
      lookupNode fs p = some (.dir cs0) →
      lookupNode (removePath fs (p ++ [n])) p = some (.dir (removeChild cs0 n)) := by
  intro p
  induction p with
  | nil =>
    intro fs cs0 n h
    cases fs with
    | dir cs =>
      obtain rfl : cs = cs0 := by
        have h2 := Option.some.inj h
        injection h2
      rfl
    | file => exact FsTree.noConfusion (Option.some.inj h)
    | link => exact FsTree.noConfusion (Option.some.inj h)
  | cons m p ih =>
    intro fs cs0 n h
    cases fs with
    | file => simp [lookupNode] at h
    | link => simp [lookupNode] at h
    | dir cs =>
      simp only [lookupNode] at h
      cases hf : findChild cs m with
      | none => rw [hf] at h; cases h
      | some c =>
        rw [hf] at h
        have hrec := ih c cs0 n h
        show lookupNode (removePath (FsTree.dir cs) (m :: (p ++ [n]))) (m :: p) = _
        have hne : p ++ [n] ≠ [] := by simp
        have hstep :
            removePath (FsTree.dir cs) (m :: (p ++ [n])) =
              .dir (updateChild cs m (removePath c (p ++ [n]))) := by
          cases hpq : p ++ [n] with
          | nil => exact absurd hpq hne
          | cons a as =>
            simp only [removePath, hf]
        rw [hstep]
        simp only [lookupNode, findChild_updateChild_self hf]
        exact hrec

theorem findChild_eq_none_of_not_mem {cs : List (String × FsTree)} {n : String}
    (h : n ∉ cs.map Prod.fst) : findChild cs n = none := by
  induction cs with
  | nil => rfl
  | cons p cs ih =>
    obtain ⟨k, t⟩ := p
    rw [List.map_cons] at h
    have hk : k ≠ n := fun he => h (by rw [he]; exact List.mem_cons_self _ _)
    have hne : (k == n) = false := beq_eq_false_iff_ne.2 hk
    simp only [findChild, hne, Bool.false_eq_true, if_false]
    exact ih (fun hm => h (List.mem_cons_of_mem _ hm))

theorem c5_loop (fuel : Nat) (dir : List String) :
    ∀ (cs0 : List (String × FsTree)) (st1 : TravState),
      lookupNode st1.fs dir = some (.dir cs0) →
      (cs0.map Prod.fst).Nodup →
      ∃ st2,
        (cs0.map Prod.fst).foldl
          (fun acc name =>
            match acc with
            | Except.error e => (Except.error e : Except FsErr TravState)
            | Except.ok st1 =>
              let fullpath := dir ++ [name]
              match isDirAt st1.fs fullpath with
              | .error e => .error e
              | .ok true =>
                let st2 : TravState :=
                  { fs := removeCb fullpath st1.fs,
                    visited := st1.visited ++ [(fullpath, true)],
                    listed := st1.listed }
                if (lookupNode st2.fs fullpath).isSome then
                  preOrderDirectoryTraverse fuel removeCb removeCb fullpath st2
                else .ok st2
              | .ok false =>
                .ok { fs := removeCb fullpath st1.fs,
                      visited := st1.visited ++ [(fullpath, false)],
                      listed := st1.listed })
          (.ok st1) = .ok st2 ∧
        st2.listed = st1.listed ∧ lookupNode st2.fs dir = some (.dir []) := by
  intro cs0
  induction cs0 with
  | nil =>
    intro st1 h _
    exact ⟨st1, rfl, rfl, h⟩
  | cons hd cs0 ih =>
    intro st1 h hnd
    obtain ⟨n, c⟩ := hd
    rw [List.map_cons, List.nodup_cons] at hnd
    have hlc : lookupNode st1.fs (dir ++ [n]) = some c := by
      rw [lookupNode_append]
      rw [h]
      simp [lookupNode, findChild]
    have hrm : lookupNode (removePath st1.fs (dir ++ [n])) dir = some (.dir cs0) := by
      have := lookupNode_removePath_concat dir st1.fs ((n, c) :: cs0) n h
      simpa [removeChild] using this
    have hgone : lookupNode (removePath st1.fs (dir ++ [n])) (dir ++ [n]) = none := by
      rw [lookupNode_append, hrm]
      simp [lookupNode, findChild_eq_none_of_not_mem hnd.1]
    rw [List.map_cons, List.foldl_cons]
    cases c with
    | dir ccs =>
      have hda : isDirAt st1.fs (dir ++ [n]) = .ok true := by
        simp [isDirAt, hlc, isDirT]
      simp only [hda, removeCb, hgone, Option.isSome_none, Bool.false_eq_true, if_false]
      exact ih { fs := removePath st1.fs (dir ++ [n]),
                 visited := st1.visited ++ [(dir ++ [n], true)],
                 listed := st1.listed } hrm hnd.2
    | file =>
      have hda : isDirAt st1.fs (dir ++ [n]) = .ok false := by
        simp [isDirAt, hlc, isDirT]
      simp only [hda, removeCb]
      exact ih { fs := removePath st1.fs (dir ++ [n]),
                 visited := st1.visited ++ [(dir ++ [n], false)],
                 listed := st1.listed } hrm hnd.2
    | link =>
      have hda : isDirAt st1.fs (dir ++ [n]) = .ok false := by
        simp [isDirAt, hlc, isDirT]
      simp only [hda, removeCb]
      exact ih { fs := removePath st1.fs (dir ++ [n]),
                 visited := st1.visited ++ [(dir ++ [n], false)],
                 listed := st1.listed } hrm hnd.2

/-- Claim C5: when the directory callback deletes the directory it is given
(and the file callback deletes its file), pre-order traversal raises no
error and never attempts to list a deleted path: after the callback it
re-checks existence and skips descent silently, so the only directory ever
listed is the root itself, which ends up empty. -/
theorem claim_C5 (fuel : Nat) (dir : List String) (st : TravState)
    (cs : List (String × FsTree))
    (hdir : lookupNode st.fs dir = some (.dir cs))
    (hnd : (cs.map Prod.fst).Nodup) :
    ∃ st2,
      preOrderDirectoryTraverse (fuel + 1) removeCb removeCb dir st = .ok st2 ∧
      st2.listed = st.listed ++ [dir] ∧
      lookupNode st2.fs dir = some (.dir []) := by
  have hloop :=
    c5_loop fuel dir cs { st with listed := st.listed ++ [dir] } hdir hnd
  obtain ⟨st2, h1, h2, h3⟩ := hloop
  refine ⟨st2, ?_, by simpa using h2, h3⟩
  simp only [preOrderDirectoryTraverse, readdirNames, hdir]
  exact h1

/-- Witness for claim C5: a root holding a subdirectory (with content) and a
file; the traversal deletes everything beneath the root, lists only the
root, and raises no error. -/
theorem claim_C5_witness :
    ∃ st2,
      preOrderDirectoryTraverse 1 removeCb removeCb ["proj"]
        { fs := FsTree.dir [("proj", FsTree.dir
            [("sub", FsTree.dir [("f", FsTree.file)]), ("g", FsTree.file)])],
          visited := [], listed := [] } = .ok st2 ∧
      st2.listed = [] ++ [["proj"]] ∧
      lookupNode st2.fs ["proj"] = some (.dir []) :=
  claim_C5 0 ["proj"]
    { fs := FsTree.dir [("proj", FsTree.dir
        [("sub", FsTree.dir [("f", FsTree.file)]), ("g", FsTree.file)])],
      visited := [], listed := [] }
    [("sub", FsTree.dir [("f", FsTree.file)]), ("g", FsTree.file)]
    rfl (by decide)

/-! Traversal completeness (claim C6): with mutation-free callbacks, both
orders visit exactly the proper descendants of the root, each once. -/

mutual
def sizeT : FsTree → Nat
  | .dir cs => 1 + sizeC cs
  | _ => 1
def sizeC : List (String × FsTree) → Nat
  | [] => 0
  | (_, t) :: cs => sizeT t + sizeC cs
end

mutual
def heightT : FsTree → Nat
  | .dir cs => 1 + heightC cs
  | _ => 0
def heightC : List (String × FsTree) → Nat
  | [] => 0
  | (_, t) :: cs => max (heightT t) (heightC cs)
end

def namesNodup : List String → Bool
  | [] => true
  | n :: ns => !(ns.any (fun m => m == n)) && namesNodup ns

mutual
/-- Well-formedness of a filesystem tree: sibling names are pairwise
distinct at every level, as a real directory listing guarantees. -/
def wfT : FsTree → Bool
  | .dir cs => namesNodup (cs.map Prod.fst) && wfC cs
  | _ => true
def wfC : List (String × FsTree) → Bool
  | [] => true
  | (_, t) :: cs => wfT t && wfC cs
end

mutual
/-- Callback invocations of a pre-order traversal below path `p` over the
children `cs`, in order: each path paired with whether the directory
callback fires there. -/
def preVisits : List String → List (String × FsTree) → List (List String × Bool)
  | _, [] => []
  | p, (n, t) :: cs => preVisitsOne p n t ++ preVisits p cs
def preVisitsOne : List String → String → FsTree → List (List String × Bool)
  | p, n, .dir cs => (p ++ [n], true) :: preVisits (p ++ [n]) cs
  | p, n, .file => [(p ++ [n], false)]
  | p, n, .link => [(p ++ [n], false)]
end

mutual
/-- Callback invocations of a post-order traversal below path `p`. -/
def postVisits : List String → List (String × FsTree) → List (List String × Bool)
  | _, [] => []
  | p, (n, t) :: cs => postVisitsOne p n t ++ postVisits p cs
def postVisitsOne : List String → String → FsTree → List (List String × Bool)
  | p, n, .dir cs => postVisits (p ++ [n]) cs ++ [(p ++ [n], true)]
  | p, n, .file => [(p ++ [n], false)]
  | p, n, .link => [(p ++ [n], false)]
end

mutual
/-- Directories listed (beyond the root) by a pre-order traversal with
mutation-free callbacks. -/
def preListed : List String → List (String × FsTree) → List (List String)
  | _, [] => []
  | p, (n, t) :: cs => preListedOne p n t ++ preListed p cs
def preListedOne : List String → String → FsTree → List (List String)
  | p, n, .dir cs => (p ++ [n]) :: preListed (p ++ [n]) cs
  | _, _, .file => []
  | _, _, .link => []
end

mutual
def postListed : List String → List (String × FsTree) → List (List String)
  | _, [] => []
  | p, (n, t) :: cs => postListedOne p n t ++ postListed p cs
def postListedOne : List String → String → FsTree → List (List String)
  | p, n, .dir cs => (p ++ [n]) :: postListed (p ++ [n]) cs
  | _, _, .file => []
  | _, _, .link => []
end

theorem heightT_le_of_mem {cs : List (String × FsTree)} {n : String} {t : FsTree}
    (h : (n, t) ∈ cs) : heightT t ≤ heightC cs := by
  induction cs with
  | nil => cases h
  | cons hd cs ih =>
    obtain ⟨m, u⟩ := hd
    rcases List.mem_cons.1 h with h | h
    · obtain ⟨h1, h2⟩ := Prod.mk.inj h
      subst h2
      simp only [heightC]
      exact le_max_left _ _
    · have := ih h
      simp only [heightC]
      exact le_trans this (le_max_right _ _)

theorem findChild_of_mem_nodup {cs : List (String × FsTree)} {n : String} {t : FsTree}
    (hnd : namesNodup (cs.map Prod.fst) = true) (hm : (n, t) ∈ cs) :
    findChild cs n = some t := by
  induction cs with
  | nil => cases hm
  | cons hd cs ih =>
    obtain ⟨m, u⟩ := hd
    rw [List.map_cons] at hnd
    simp only [namesNodup, Bool.and_eq_true, Bool.not_eq_true'] at hnd
    rcases List.mem_cons.1 hm with hm | hm
    · obtain ⟨h1, h2⟩ := Prod.mk.inj hm
      subst h1; subst h2
      simp [findChild]
    · have hne : m ≠ n := by
        intro he
        subst he
        have habs : (cs.map Prod.fst).any (fun k => k == m) = true :=
          List.any_eq_true.2 ⟨m, List.mem_map_of_mem Prod.fst hm, by simp⟩
        rw [hnd.1] at habs
        exact absurd habs (by simp)
      have hne2 : (m == n) = false := beq_eq_false_iff_ne.2 hne
      simp only [findChild, hne2, Bool.false_eq_true, if_false]
      exact ih hnd.2 hm

theorem findChild_mem {cs : List (String × FsTree)} {n : String} {t : FsTree}
    (h : findChild cs n = some t) : (n, t) ∈ cs := by
  induction cs with
  | nil => simp [findChild] at h
  | cons hd cs ih =>
    obtain ⟨m, u⟩ := hd
    by_cases hm : m = n
    · subst hm
      simp only [findChild, beq_self_eq_true, if_true, Option.some.injEq] at h
      subst h
      exact List.mem_cons_self _ _
    · have hne : (m == n) = false := beq_eq_false_iff_ne.2 hm
      simp only [findChild, hne, Bool.false_eq_true, if_false] at h
      exact List.mem_cons_of_mem _ (ih h)

theorem preOrder_pure (dirCallback fileCallback : Cb)
    (hD : ∀ p f, dirCallback p f = f) (hF : ∀ p f, fileCallback p f = f) :
    ∀ (fuel : Nat) (dir : List String) (st : TravState) (cs : List (String × FsTree)),
      lookupNode st.fs dir = some (.dir cs) →
      wfT (.dir cs) = true →
      heightC cs < fuel →
      preOrderDirectoryTraverse fuel dirCallback fileCallback dir st =
        .ok { fs := st.fs, visited := st.visited ++ preVisits dir cs,
              listed := st.listed ++ (dir :: preListed dir cs) } := by
  intro fuel
  induction fuel with
  | zero => intro dir st cs _ _ hh; omega
  | succ fuel ih =>
    intro dir st cs hlk hwf hh
    simp only [wfT, Bool.and_eq_true] at hwf
    have key : ∀ (suffix : List (String × FsTree)) (st1 : TravState),
        st1.fs = st.fs →
        (∀ q ∈ suffix, lookupNode st.fs (dir ++ [q.1]) = some q.2) →
        wfC suffix = true →
        (∀ q ∈ suffix, heightT q.2 ≤ fuel) →
        (suffix.map Prod.fst).foldl
          (fun acc name =>
            match acc with
            | Except.error e => (Except.error e : Except FsErr TravState)
            | Except.ok st1 =>
              let fullpath := dir ++ [name]
              match isDirAt st1.fs fullpath with
              | .error e => .error e
              | .ok true =>
                let st2 : TravState :=
                  { fs := dirCallback fullpath st1.fs,
                    visited := st1.visited ++ [(fullpath, true)],
                    listed := st1.listed }
                if (lookupNode st2.fs fullpath).isSome then
                  preOrderDirectoryTraverse fuel dirCallback fileCallback fullpath st2
                else .ok st2
              | .ok false =>
                .ok { fs := fileCallback fullpath st1.fs,
                      visited := st1.visited ++ [(fullpath, false)],
                      listed := st1.listed })
          (.ok st1) =
          .ok { fs := st.fs, visited := st1.visited ++ preVisits dir suffix,
                listed := st1.listed ++ preListed dir suffix } := by
      intro suffix
      induction suffix with
      | nil =>
        intro st1 hfs _ _ _
        obtain ⟨f1, v1, l1⟩ := st1
        simp only at hfs
        subst hfs
        simp [preVisits, preListed]
      | cons q rest ihs =>
        intro st1 hfs hsub hwfc hht
        obtain ⟨n, t⟩ := q
        simp only [wfC, Bool.and_eq_true] at hwfc
        have hq : lookupNode st.fs (dir ++ [n]) = some t :=
          hsub (n, t) (List.mem_cons_self _ _)
        simp only [List.map_cons, List.foldl_cons]
        cases t with
        | dir tcs =>
          have hda : isDirAt st1.fs (dir ++ [n]) = .ok true := by
            rw [hfs]
            simp [isDirAt, hq, isDirT]
          have hcb : dirCallback (dir ++ [n]) st1.fs = st.fs := by rw [hD, hfs]
          have hex : (lookupNode st.fs (dir ++ [n])).isSome = true := by
            simp [hq]
          simp only [hda, hcb, hex, if_true]
          have hrec := ih (dir ++ [n])
            { fs := st.fs, visited := st1.visited ++ [(dir ++ [n], true)],
              listed := st1.listed }
            tcs hq hwfc.1 (by
              have := hht (n, .dir tcs) (List.mem_cons_self _ _)
              simp only [heightT] at this
              omega)
          rw [hrec]
          rw [ihs { fs := st.fs, visited := (st1.visited ++ [(dir ++ [n], true)]) ++ preVisits (dir ++ [n]) tcs,
                    listed := st1.listed ++ ((dir ++ [n]) :: preListed (dir ++ [n]) tcs) }
            rfl (fun q hqm => hsub q (List.mem_cons_of_mem _ hqm)) hwfc.2
            (fun q hqm => hht q (List.mem_cons_of_mem _ hqm))]
          simp [preVisits, preVisitsOne, preListed, preListedOne, List.append_assoc]
        | file =>
          have hda : isDirAt st1.fs (dir ++ [n]) = .ok false := by
            rw [hfs]
            simp [isDirAt, hq, isDirT]
          have hcb : fileCallback (dir ++ [n]) st1.fs = st.fs := by rw [hF, hfs]
          simp only [hda, hcb]
          rw [ihs { fs := st.fs, visited := st1.visited ++ [(dir ++ [n], false)],
                    listed := st1.listed }
            rfl (fun q hqm => hsub q (List.mem_cons_of_mem _ hqm)) hwfc.2
            (fun q hqm => hht q (List.mem_cons_of_mem _ hqm))]
          simp [preVisits, preVisitsOne, preListed, preListedOne, List.append_assoc]
        | link =>
          have hda : isDirAt st1.fs (dir ++ [n]) = .ok false := by
            rw [hfs]
            simp [isDirAt, hq, isDirT]
          have hcb : fileCallback (dir ++ [n]) st1.fs = st.fs := by rw [hF, hfs]
          simp only [hda, hcb]
          rw [ihs { fs := st.fs, visited := st1.visited ++ [(dir ++ [n], false)],
                    listed := st1.listed }
            rfl (fun q hqm => hsub q (List.mem_cons_of_mem _ hqm)) hwfc.2
            (fun q hqm => hht q (List.mem_cons_of_mem _ hqm))]
          simp [preVisits, preVisitsOne, preListed, preListedOne, List.append_assoc]
    simp only [preOrderDirectoryTraverse, readdirNames, hlk]
    have hsub : ∀ q ∈ cs, lookupNode st.fs (dir ++ [q.1]) = some q.2 := by
      intro q hqm
      obtain ⟨a, b⟩ := q
      rw [lookupNode_append, hlk]
      simp only [lookupNode]
      rw [findChild_of_mem_nodup hwf.1 hqm]
    have hht : ∀ q ∈ cs, heightT q.2 ≤ fuel := by
      intro q hqm
      obtain ⟨a, b⟩ := q
      have := heightT_le_of_mem hqm
      show heightT b ≤ fuel
      omega
    have hkey := key cs { st with listed := st.listed ++ [dir] } rfl hsub hwf.2 hht
    refine hkey.trans ?_
    simp [List.append_assoc]

theorem postOrder_pure (dirCallback fileCallback : Cb)
    (hD : ∀ p f, dirCallback p f = f) (hF : ∀ p f, fileCallback p f = f) :
    ∀ (fuel : Nat) (dir : List String) (st : TravState) (cs : List (String × FsTree)),
      lookupNode st.fs dir = some (.dir cs) →
      wfT (.dir cs) = true →
      heightC cs < fuel →
      postOrderDirectoryTraverse fuel dirCallback fileCallback dir st =
        .ok { fs := st.fs, visited := st.visited ++ postVisits dir cs,
              listed := st.listed ++ (dir :: postListed dir cs) } := by
  intro fuel
  induction fuel with
  | zero => intro dir st cs _ _ hh; omega
  | succ fuel ih =>
    intro dir st cs hlk hwf hh
    simp only [wfT, Bool.and_eq_true] at hwf
    have key : ∀ (suffix : List (String × FsTree)) (st1 : TravState),
        st1.fs = st.fs →
        (∀ q ∈ suffix, lookupNode st.fs (dir ++ [q.1]) = some q.2) →
        wfC suffix = true →
        (∀ q ∈ suffix, heightT q.2 ≤ fuel) →
        (suffix.map Prod.fst).foldl
          (fun acc name =>
            match acc with
            | Except.error e => (Except.error e : Except FsErr TravState)
            | Except.ok st1 =>
              let fullpath := dir ++ [name]
              match isDirAt st1.fs fullpath with
              | .error e => .error e
              | .ok true =>
                match postOrderDirectoryTraverse fuel dirCallback fileCallback fullpath st1 with
                | .error e => .error e
                | .ok st2 =>
                  .ok { fs := dirCallback fullpath st2.fs,
                        visited := st2.visited ++ [(fullpath, true)],
                        listed := st2.listed }
              | .ok false =>
                .ok { fs := fileCallback fullpath st1.fs,
                      visited := st1.visited ++ [(fullpath, false)],
                      listed := st1.listed })
          (.ok st1) =
          .ok { fs := st.fs, visited := st1.visited ++ postVisits dir suffix,
                listed := st1.listed ++ postListed dir suffix } := by
      intro suffix
      induction suffix with
      | nil =>
        intro st1 hfs _ _ _
        obtain ⟨f1, v1, l1⟩ := st1
        simp only at hfs
        subst hfs
        simp [postVisits, postListed]
      | cons q rest ihs =>
        intro st1 hfs hsub hwfc hht
        obtain ⟨n, t⟩ := q
        simp only [wfC, Bool.and_eq_true] at hwfc
        have hq : lookupNode st.fs (dir ++ [n]) = some t :=
          hsub (n, t) (List.mem_cons_self _ _)
        simp only [List.map_cons, List.foldl_cons]
        cases t with
        | dir tcs =>
          have hda : isDirAt st1.fs (dir ++ [n]) = .ok true := by
            rw [hfs]
            simp [isDirAt, hq, isDirT]
          have hrec := ih (dir ++ [n]) st1 tcs (by rw [hfs]; exact hq) hwfc.1 (by
            have := hht (n, .dir tcs) (List.mem_cons_self _ _)
            simp only [heightT] at this
            omega)
          rw [hfs] at hrec
          have hcb : dirCallback (dir ++ [n]) st.fs = st.fs := hD _ _
          simp only [hda, hrec, hcb]
          rw [ihs { fs := st.fs,
                    visited := (st1.visited ++ postVisits (dir ++ [n]) tcs) ++ [(dir ++ [n], true)],
                    listed := st1.listed ++ ((dir ++ [n]) :: postListed (dir ++ [n]) tcs) }
            rfl (fun q hqm => hsub q (List.mem_cons_of_mem _ hqm)) hwfc.2
            (fun q hqm => hht q (List.mem_cons_of_mem _ hqm))]
          simp [postVisits, postVisitsOne, postListed, postListedOne, List.append_assoc]
        | file =>
          have hda : isDirAt st1.fs (dir ++ [n]) = .ok false := by
            rw [hfs]
            simp [isDirAt, hq, isDirT]
          have hcb : fileCallback (dir ++ [n]) st1.fs = st.fs := by rw [hF, hfs]
          simp only [hda, hcb]
          rw [ihs { fs := st.fs, visited := st1.visited ++ [(dir ++ [n], false)],
                    listed := st1.listed }
            rfl (fun q hqm => hsub q (List.mem_cons_of_mem _ hqm)) hwfc.2
            (fun q hqm => hht q (List.mem_cons_of_mem _ hqm))]
          simp [postVisits, postVisitsOne, postListed, postListedOne, List.append_assoc]
        | link =>
          have hda : isDirAt st1.fs (dir ++ [n]) = .ok false := by
            rw [hfs]
            simp [isDirAt, hq, isDirT]
          have hcb : fileCallback (dir ++ [n]) st1.fs = st.fs := by rw [hF, hfs]
          simp only [hda, hcb]
          rw [ihs { fs := st.fs, visited := st1.visited ++ [(dir ++ [n], false)],
                    listed := st1.listed }
            rfl (fun q hqm => hsub q (List.mem_cons_of_mem _ hqm)) hwfc.2
            (fun q hqm => hht q (List.mem_cons_of_mem _ hqm))]
          simp [postVisits, postVisitsOne, postListed, postListedOne, List.append_assoc]
    simp only [postOrderDirectoryTraverse, readdirNames, hlk]
    have hsub : ∀ q ∈ cs, lookupNode st.fs (dir ++ [q.1]) = some q.2 := by
      intro q hqm
      obtain ⟨a, b⟩ := q
      rw [lookupNode_append, hlk]
      simp only [lookupNode]
      rw [findChild_of_mem_nodup hwf.1 hqm]
    have hht : ∀ q ∈ cs, heightT q.2 ≤ fuel := by
      intro q hqm
      obtain ⟨a, b⟩ := q
      have := heightT_le_of_mem hqm
      show heightT b ≤ fuel
      omega
    have hkey := key cs { st with listed := st.listed ++ [dir] } rfl hsub hwf.2 hht
    refine hkey.trans ?_
    simp [List.append_assoc]

theorem sizeT_pos (t : FsTree) : 1 ≤ sizeT t := by
  cases t <;> (simp only [sizeT]; omega)

theorem sizeT_le_of_mem {cs : List (String × FsTree)} {n : String} {t : FsTree}
    (h : (n, t) ∈ cs) : sizeT t ≤ sizeC cs := by
  induction cs with
  | nil => simp at h
  | cons c rest ih =>
    obtain ⟨n0, t0⟩ := c
    rcases List.mem_cons.1 h with h1 | h1
    · simp only [Prod.mk.injEq] at h1
      simp only [sizeC, h1.2]
      omega
    · simp only [sizeC]
      have := ih h1
      omega

theorem lookupNode_dir_cons (cs : List (String × FsTree)) (n : String)
    (rest : List String) :
    lookupNode (.dir cs) (n :: rest) =
      match findChild cs n with
      | some c => lookupNode c rest
      | none => none := rfl

theorem findChild_cons_self (n : String) (t : FsTree)
    (cs : List (String × FsTree)) :
    findChild ((n, t) :: cs) n = some t := by
  simp [findChild]

/-- Pre-order and post-order callback logs are permutations of one another:
the same multiset of (path, which-callback) invocations. -/
theorem visits_perm_aux :
    ∀ (N : Nat) (cs : List (String × FsTree)) (p : List String),
      sizeC cs ≤ N → (preVisits p cs).Perm (postVisits p cs) := by
  intro N
  induction N with
  | zero =>
    intro cs p h
    cases cs with
    | nil => exact List.Perm.refl _
    | cons c rest =>
      exfalso
      obtain ⟨n, t⟩ := c
      have := sizeT_pos t
      simp only [sizeC] at h
      omega
  | succ N ih =>
    intro cs p h
    cases cs with
    | nil => exact List.Perm.refl _
    | cons c rest =>
      obtain ⟨n, t⟩ := c
      simp only [sizeC] at h
      have h1 := sizeT_pos t
      simp only [preVisits, postVisits]
      refine List.Perm.append ?_ (ih rest p (by omega))
      cases t with
      | dir tcs =>
        simp only [preVisitsOne, postVisitsOne]
        have hp := ih tcs (p ++ [n]) (by simp only [sizeT] at h; omega)
        exact List.Perm.trans (hp.cons _) (List.perm_append_singleton _ _).symm
      | file => exact List.Perm.refl _
      | link => exact List.Perm.refl _

/-- Every pre-order invocation path extends the parent path by the name of
one of its children. -/
theorem preVisits_shape :
    ∀ (N : Nat) (cs : List (String × FsTree)) (p q : List String) (b : Bool),
      sizeC cs ≤ N → (q, b) ∈ preVisits p cs →
      ∃ n suf, n ∈ cs.map Prod.fst ∧ q = p ++ n :: suf := by
  intro N
  induction N with
  | zero =>
    intro cs p q b h hm
    cases cs with
    | nil => simp [preVisits] at hm
    | cons c rest =>
      exfalso
      obtain ⟨n, t⟩ := c
      have := sizeT_pos t
      simp only [sizeC] at h
      omega
  | succ N ih =>
    intro cs p q b h hm
    cases cs with
    | nil => simp [preVisits] at hm
    | cons c rest =>
      obtain ⟨n, t⟩ := c
      simp only [sizeC] at h
      have h1 := sizeT_pos t
      simp only [preVisits, List.mem_append] at hm
      rcases hm with hm | hm
      · cases t with
        | dir tcs =>
          simp only [preVisitsOne, List.mem_cons] at hm
          rcases hm with hm | hm
          · simp only [Prod.mk.injEq] at hm
            exact ⟨n, [], by simp, hm.1⟩
          · obtain ⟨m, suf, _, hq⟩ :=
              ih tcs (p ++ [n]) q b (by simp only [sizeT] at h; omega) hm
            refine ⟨n, m :: suf, by simp, ?_⟩
            rw [hq]
            simp
        | file =>
          simp only [preVisitsOne, List.mem_singleton, Prod.mk.injEq] at hm
          exact ⟨n, [], by simp, hm.1⟩
        | link =>
          simp only [preVisitsOne, List.mem_singleton, Prod.mk.injEq] at hm
          exact ⟨n, [], by simp, hm.1⟩
      · obtain ⟨m, suf, hmk, hq⟩ := ih rest p q b (by omega) hm
        refine ⟨m, suf, ?_, hq⟩
        simp only [List.map_cons, List.mem_cons]
        exact Or.inr hmk

/-- The single-child version: every invocation below child `n` sits under
`p ++ [n]`. -/
theorem preVisitsOne_shape {p : List String} {n : String} {t : FsTree}
    {q : List String} {b : Bool}
    (hm : (q, b) ∈ preVisitsOne p n t) : ∃ suf, q = p ++ n :: suf := by
  cases t with
  | dir tcs =>
    simp only [preVisitsOne, List.mem_cons] at hm
    rcases hm with hm | hm
    · simp only [Prod.mk.injEq] at hm
      exact ⟨[], hm.1⟩
    · obtain ⟨m, suf, _, hq⟩ :=
        preVisits_shape (sizeC tcs) tcs (p ++ [n]) q b le_rfl hm
      refine ⟨m :: suf, ?_⟩
      rw [hq]
      simp
  | file =>
    simp only [preVisitsOne, List.mem_singleton, Prod.mk.injEq] at hm
    exact ⟨[], hm.1⟩
  | link =>
    simp only [preVisitsOne, List.mem_singleton, Prod.mk.injEq] at hm
    exact ⟨[], hm.1⟩

/-- On a well-formed tree (pairwise-distinct sibling names at every level),
no path receives two callback invocations in a pre-order traversal. -/
theorem preVisits_nodup :
    ∀ (N : Nat) (cs : List (String × FsTree)) (p : List String),
      sizeC cs ≤ N → wfT (.dir cs) = true →
      ((preVisits p cs).map Prod.fst).Nodup := by
  intro N
  induction N with
  | zero =>
    intro cs p h _
    cases cs with
    | nil => simp [preVisits]
    | cons c rest =>
      exfalso
      obtain ⟨n, t⟩ := c
      have := sizeT_pos t
      simp only [sizeC] at h
      omega
  | succ N ih =>
    intro cs p h hwf
    cases cs with
    | nil => simp [preVisits]
    | cons c rest =>
      obtain ⟨n, t⟩ := c
      simp only [sizeC] at h
      have h1 := sizeT_pos t
      simp only [wfT, wfC, List.map_cons, namesNodup, Bool.and_eq_true,
        Bool.not_eq_true'] at hwf
      obtain ⟨⟨hnm, hnd⟩, hwt, hwc⟩ := hwf
      simp only [preVisits, List.map_append]
      rw [List.nodup_append]
      refine ⟨?_, ?_, ?_⟩
      · cases t with
        | dir tcs =>
          simp only [preVisitsOne, List.map_cons, List.nodup_cons]
          constructor
          · intro hmem
            obtain ⟨x, hx, hxq⟩ := List.mem_map.1 hmem
            obtain ⟨q, b⟩ := x
            obtain ⟨m, suf, _, hq⟩ :=
              preVisits_shape (sizeC tcs) tcs (p ++ [n]) q b le_rfl hx
            have h2 : (p ++ [n]) ++ m :: suf = p ++ [n] := by
              rw [← hq]
              exact hxq
            have h3 := congrArg List.length h2
            simp only [List.length_append, List.length_cons,
              List.length_nil] at h3
            omega
          · exact ih tcs (p ++ [n]) (by simp only [sizeT] at h; omega) hwt
        | file => simp [preVisitsOne]
        | link => simp [preVisitsOne]
      · have hwf2 : wfT (.dir rest) = true := by
          simp only [wfT, Bool.and_eq_true]
          exact ⟨hnd, hwc⟩
        exact ih rest p (by omega) hwf2
      · intro x hx1 hx2
        obtain ⟨⟨q1, b1⟩, hq1, hxq1⟩ := List.mem_map.1 hx1
        obtain ⟨⟨q2, b2⟩, hq2, hxq2⟩ := List.mem_map.1 hx2
        obtain ⟨suf1, hs1⟩ := preVisitsOne_shape hq1
        obtain ⟨m, suf2, hmk, hs2⟩ :=
          preVisits_shape (sizeC rest) rest p q2 b2 le_rfl hq2
        have hq12 : q1 = q2 := hxq1.trans hxq2.symm
        have hps : p ++ n :: suf1 = p ++ m :: suf2 := by
          rw [← hs1, ← hs2, hq12]
        have hcons := List.append_cancel_left hps
        injection hcons with hhead _
        rw [← hhead] at hmk
        have hfalse : ((rest.map Prod.fst).any (fun x => x == n)) = true :=
          List.any_eq_true.2 ⟨n, hmk, by simp⟩
        rw [hnm] at hfalse
        exact Bool.noConfusion hfalse

/-- Soundness: every pre-order callback invocation corresponds to an entry
actually present in the tree, with the directory flag reporting whether the
entry is a directory. -/
theorem preVisits_mem_lookup :
    ∀ (N : Nat) (cs : List (String × FsTree)) (p q : List String) (b : Bool),
      sizeC cs ≤ N → wfT (.dir cs) = true →
      (q, b) ∈ preVisits p cs →
      ∃ t suffix, suffix ≠ [] ∧ q = p ++ suffix ∧
        lookupNode (.dir cs) suffix = some t ∧ b = isDirT t := by
  intro N
  induction N with
  | zero =>
    intro cs p q b h _ hm
    cases cs with
    | nil => simp [preVisits] at hm
    | cons c rest =>
      exfalso
      obtain ⟨n, t⟩ := c
      have := sizeT_pos t
      simp only [sizeC] at h
      omega
  | succ N ih =>
    intro cs p q b h hwf hm
    cases cs with
    | nil => simp [preVisits] at hm
    | cons c rest =>
      obtain ⟨n, t⟩ := c
      simp only [sizeC] at h
      have h1 := sizeT_pos t
      simp only [wfT, wfC, List.map_cons, namesNodup, Bool.and_eq_true,
        Bool.not_eq_true'] at hwf
      obtain ⟨⟨hnm, hnd⟩, hwt, hwc⟩ := hwf
      simp only [preVisits, List.mem_append] at hm
      rcases hm with hm | hm
      · cases t with
        | dir tcs =>
          simp only [preVisitsOne, List.mem_cons] at hm
          rcases hm with hm | hm
          · simp only [Prod.mk.injEq] at hm
            refine ⟨FsTree.dir tcs, [n], by simp, hm.1, ?_,
              by simp [hm.2, isDirT]⟩
            simp only [lookupNode_dir_cons, findChild_cons_self]
            rfl
          · obtain ⟨t2, suf, hne2, hq, hlk2, hb⟩ :=
              ih tcs (p ++ [n]) q b (by simp only [sizeT] at h; omega) hwt hm
            refine ⟨t2, n :: suf, by simp, by rw [hq]; simp, ?_, hb⟩
            simp only [lookupNode_dir_cons, findChild_cons_self]
            exact hlk2
        | file =>
          simp only [preVisitsOne, List.mem_singleton, Prod.mk.injEq] at hm
          refine ⟨FsTree.file, [n], by simp, hm.1, ?_,
            by simp [hm.2, isDirT]⟩
          simp only [lookupNode_dir_cons, findChild_cons_self]
          rfl
        | link =>
          simp only [preVisitsOne, List.mem_singleton, Prod.mk.injEq] at hm
          refine ⟨FsTree.link, [n], by simp, hm.1, ?_,
            by simp [hm.2, isDirT]⟩
          simp only [lookupNode_dir_cons, findChild_cons_self]
          rfl
      · have hwf2 : wfT (.dir rest) = true := by
          simp only [wfT, Bool.and_eq_true]
          exact ⟨hnd, hwc⟩
        obtain ⟨t2, suf, hne2, hq, hlk2, hb⟩ :=
          ih rest p q b (by omega) hwf2 hm
        cases suf with
        | nil => exact absurd rfl hne2
        | cons m suf2 =>
          rw [lookupNode_dir_cons] at hlk2
          cases hfc : findChild rest m with
          | none =>
            simp only [hfc] at hlk2
            exact Option.noConfusion hlk2
          | some c =>
            simp only [hfc] at hlk2
            have hmem : (m, c) ∈ rest := findChild_mem hfc
            have hmn : m ∈ rest.map Prod.fst :=
              List.mem_map.2 ⟨(m, c), hmem, rfl⟩
            have hne3 : (n == m) = false := by
              refine beq_eq_false_iff_ne.2 ?_
              intro hEq
              have hfalse : ((rest.map Prod.fst).any (fun x => x == n)) = true :=
                List.any_eq_true.2 ⟨m, hmn, by simp [hEq]⟩
              rw [hnm] at hfalse
              exact Bool.noConfusion hfalse
            have hfc2 : findChild ((n, t) :: rest) m = some c := by
              simp only [findChild, hne3, Bool.false_eq_true, if_false]
              exact hfc
            refine ⟨t2, m :: suf2, by simp, hq, ?_, hb⟩
            simp only [lookupNode_dir_cons, hfc2]
            exact hlk2

/-- Each invocation of a single child is among the invocations of any
sibling list containing that child. -/
theorem preVisitsOne_subset {cs : List (String × FsTree)} {n : String}
    {t : FsTree} (h : (n, t) ∈ cs) (p : List String) :
    ∀ x ∈ preVisitsOne p n t, x ∈ preVisits p cs := by
  induction cs with
  | nil => simp at h
  | cons c rest ih =>
    intro x hx
    rcases List.mem_cons.1 h with h1 | h1
    · rw [← h1]
      simp only [preVisits, List.mem_append]
      exact Or.inl hx
    · obtain ⟨n0, t0⟩ := c
      simp only [preVisits, List.mem_append]
      exact Or.inr (ih h1 x hx)

/-- Completeness: every entry present in the tree receives exactly the
callback matching its kind during a pre-order traversal. -/
theorem lookup_mem_preVisits :
    ∀ (N : Nat) (cs : List (String × FsTree)) (p suffix : List String)
      (t : FsTree),
      sizeC cs ≤ N → suffix ≠ [] →
      lookupNode (.dir cs) suffix = some t →
      (p ++ suffix, isDirT t) ∈ preVisits p cs := by
  intro N
  induction N with
  | zero =>
    intro cs p suffix t h hne hlk
    cases cs with
    | nil =>
      cases suffix with
      | nil => exact absurd rfl hne
      | cons m rest2 =>
        rw [lookupNode_dir_cons] at hlk
        simp only [findChild] at hlk
        exact Option.noConfusion hlk
    | cons c rest =>
      exfalso
      obtain ⟨n, t0⟩ := c
      have := sizeT_pos t0
      simp only [sizeC] at h
      omega
  | succ N ih =>
    intro cs p suffix t h hne hlk
    cases suffix with
    | nil => exact absurd rfl hne
    | cons m suf =>
      rw [lookupNode_dir_cons] at hlk
      cases hfc : findChild cs m with
      | none =>
        simp only [hfc] at hlk
        exact Option.noConfusion hlk
      | some c =>
        simp only [hfc] at hlk
        have hmem : (m, c) ∈ cs := findChild_mem hfc
        cases suf with
        | nil =>
          have hct : c = t := by
            cases c with
            | dir x => exact Option.some.inj hlk
            | file => exact Option.some.inj hlk
            | link => exact Option.some.inj hlk
          subst hct
          have hx : (p ++ [m], isDirT c) ∈ preVisitsOne p m c := by
            cases c with
            | dir x => simp [preVisitsOne, isDirT]
            | file => simp [preVisitsOne, isDirT]
            | link => simp [preVisitsOne, isDirT]
          exact preVisitsOne_subset hmem p _ hx
        | cons m2 suf2 =>
          cases c with
          | file =>
            have hnone : lookupNode FsTree.file (m2 :: suf2) = none := rfl
            rw [hnone] at hlk
            exact Option.noConfusion hlk
          | link =>
            have hnone : lookupNode FsTree.link (m2 :: suf2) = none := rfl
            rw [hnone] at hlk
            exact Option.noConfusion hlk
          | dir ccs =>
            have hsz : sizeC ccs ≤ N := by
              have hle := sizeT_le_of_mem hmem
              simp only [sizeT] at hle
              omega
            have hrec := ih ccs (p ++ [m]) (m2 :: suf2) t hsz (by simp) hlk
            have hx : (p ++ m :: m2 :: suf2, isDirT t) ∈
                preVisitsOne p m (.dir ccs) := by
              simp only [preVisitsOne, List.mem_cons]
              right
              have hpp : p ++ m :: m2 :: suf2 = (p ++ [m]) ++ m2 :: suf2 := by
                simp
              rw [hpp]
              exact hrec
            exact preVisitsOne_subset hmem p _ hx

/-- Claim C6: for a fixed directory tree (well-formed: pairwise-distinct
sibling names) and callbacks that perform no filesystem mutation, both
`preOrderDirectoryTraverse` and `postOrderDirectoryTraverse` succeed and
invoke their callbacks on the identical set of descendant paths, each
exactly once: the two invocation logs are permutations of one another, the
pre-order log repeats no path, and a pair (q, b) is logged exactly when q
names an entry of the tree, with b = true (the directory callback) exactly
on directories and b = false (the file callback) on files and symbolic
links.  Only the relative order of a directory versus its descendants
differs between the two traversals. -/
theorem claim_C6 (dirCallback fileCallback : Cb)
    (hD : ∀ p f, dirCallback p f = f) (hF : ∀ p f, fileCallback p f = f)
    (fuel : Nat) (dir : List String) (st : TravState)
    (cs : List (String × FsTree))
    (hdir : lookupNode st.fs dir = some (.dir cs))
    (hwf : wfT (.dir cs) = true)
    (hfuel : heightC cs < fuel) :
    (preOrderDirectoryTraverse fuel dirCallback fileCallback dir st =
       .ok { fs := st.fs, visited := st.visited ++ preVisits dir cs,
             listed := st.listed ++ (dir :: preListed dir cs) }) ∧
    (postOrderDirectoryTraverse fuel dirCallback fileCallback dir st =
       .ok { fs := st.fs, visited := st.visited ++ postVisits dir cs,
             listed := st.listed ++ (dir :: postListed dir cs) }) ∧
    (preVisits dir cs).Perm (postVisits dir cs) ∧
    ((preVisits dir cs).map Prod.fst).Nodup ∧
    (∀ q b, (q, b) ∈ preVisits dir cs ↔
       ∃ t suffix, suffix ≠ [] ∧ q = dir ++ suffix ∧
         lookupNode (.dir cs) suffix = some t ∧ b = isDirT t) := by
  refine ⟨preOrder_pure dirCallback fileCallback hD hF fuel dir st cs
      hdir hwf hfuel,
    postOrder_pure dirCallback fileCallback hD hF fuel dir st cs
      hdir hwf hfuel,
    visits_perm_aux (sizeC cs) cs dir le_rfl,
    preVisits_nodup (sizeC cs) cs dir le_rfl hwf, ?_⟩
  intro q b
  constructor
  · intro hmem
    exact preVisits_mem_lookup (sizeC cs) cs dir q b le_rfl hwf hmem
  · rintro ⟨t, suffix, hne, hq, hlk, hb⟩
    rw [hq, hb]
    exact lookup_mem_preVisits (sizeC cs) cs dir suffix t le_rfl hne hlk

/-- A concrete source tree for exercising claim C6: a root directory with a
subdirectory (holding one file), a plain file and a symbolic link. -/
def c6tree : List (String × FsTree) :=
  [("a", FsTree.dir [("f", FsTree.file)]), ("b", FsTree.file),
   ("c", FsTree.link)]

def c6st : TravState :=
  { fs := FsTree.dir [("root", FsTree.dir c6tree)], visited := [],
    listed := [] }

/-- Witness for claim C6 at the concrete tree `c6tree` with identity (hence
mutation-free) callbacks. -/
theorem claim_C6_witness :
    wfT (.dir c6tree) = true ∧ heightC c6tree < 3 ∧
    ((preOrderDirectoryTraverse 3 (fun _ f => f) (fun _ f => f) ["root"]
        c6st =
       .ok { fs := c6st.fs,
             visited := c6st.visited ++ preVisits ["root"] c6tree,
             listed := c6st.listed ++
               (["root"] :: preListed ["root"] c6tree) }) ∧
     (postOrderDirectoryTraverse 3 (fun _ f => f) (fun _ f => f) ["root"]
        c6st =
       .ok { fs := c6st.fs,
             visited := c6st.visited ++ postVisits ["root"] c6tree,
             listed := c6st.listed ++
               (["root"] :: postListed ["root"] c6tree) }) ∧
     (preVisits ["root"] c6tree).Perm (postVisits ["root"] c6tree) ∧
     ((preVisits ["root"] c6tree).map Prod.fst).Nodup ∧
     (∀ q b, (q, b) ∈ preVisits ["root"] c6tree ↔
        ∃ t suffix, suffix ≠ [] ∧ q = ["root"] ++ suffix ∧
          lookupNode (.dir c6tree) suffix = some t ∧ b = isDirT t)) :=
  ⟨by decide, by decide,
   claim_C6 (fun _ f => f) (fun _ f => f) (fun _ _ => rfl) (fun _ _ => rfl)
     3 ["root"] c6st c6tree rfl (by decide) (by decide)⟩

end CreateVue
